import Mathlib

/-!
Verification of the infectious-disease-simulation repository.

This file gives a shallow embedding of the algorithmic core of the
repository (Dijkstra shortest paths, the priority queue, Kruskal MST with
union-find, the additional-connections augmenter, the disease Bernoulli
trials, the agent state machine and the population engine) and proves or
refutes the frozen specification claims about it.

Conventions used throughout the embedding:
* Python `int` is `ℤ` (or `ℕ` where the source only ever produces
  non-negative values, such as edge weights `int(math.sqrt(...))`).
* Python `float` arithmetic is modelled exactly over `ℚ`; `math.sqrt`
  inside the simulation geometry is abstracted by an explicit square-root
  function parameter `sqrtFn` wherever its value matters, and every
  concrete theorem below only ever evaluates that parameter on perfect
  squares, where every implementation of a square root agrees.
* `float('inf')` distances are `ℕ∞`.
* Python dictionaries whose keys are statically known are modelled as
  total functions; mutation is `Function.update`.
* `random.randint(0, 1000)` draws are explicit integer arguments; the set
  of values the Python call can produce is `Finset.Icc 0 1000` (Python's
  `randint` is inclusive at both ends).
-/

set_option autoImplicit false

namespace InfSim

/-- Building / road-graph node: a pair of integer coordinates
(`tuple[int, int]` in the source). -/
abbrev Node : Type := ℤ × ℤ

/-! ### Disease (src/infectious_disease_simulation/disease.py) -/

/-- State of a `Disease` object after `Disease.__init__`: the stored
per-hour rates and the incubation time in seconds. -/
structure Disease where
  seconds_per_hour : ℚ
  infection_rate : ℚ
  incubation_time : ℚ
  recovery_rate : ℚ
  mortality_rate : ℚ
  deriving DecidableEq

/-- Embedding of `Disease.__init__`: daily rates are divided by 24,
incubation time is converted from days to seconds. -/
def Disease.make (infection_rate : ℚ) (incubation_time : ℚ) (recovery_rate : ℚ)
    (mortality_rate : ℚ) (seconds_per_hour : ℚ) : Disease :=
  { seconds_per_hour := seconds_per_hour
    infection_rate := infection_rate / 24
    incubation_time := incubation_time * 24 * seconds_per_hour
    recovery_rate := recovery_rate / 24
    mortality_rate := mortality_rate / 24 }

/-- The set of values `random.randint(0, 1000)` can return: Python's
`randint` is inclusive at both endpoints. -/
def randintRange : Finset ℤ := Finset.Icc 0 1000

/-- Embedding of `Disease.infect`, with the random draw made explicit:
`random.randint(0, 1000) < self.__infection_rate * 1000`. -/
def Disease.infect (d : Disease) (draw : ℤ) : Bool :=
  decide ((draw : ℚ) < d.infection_rate * 1000)

/-- Embedding of `Disease.recover`:
`random.randint(0, 1000) < self.__recovery_rate * 1000`. -/
def Disease.recover (d : Disease) (draw : ℤ) : Bool :=
  decide ((draw : ℚ) < d.recovery_rate * 1000)

/-- Embedding of `Disease.die`:
`random.randint(0, 1000) < self.__mortality_rate * 1000`. -/
def Disease.die (d : Disease) (draw : ℤ) : Bool :=
  decide ((draw : ℚ) < d.mortality_rate * 1000)

/-! ### Person infection state (src/infectious_disease_simulation/person.py) -/

/-- The five agent states `'S' | 'E' | 'I' | 'R' | 'D'`. -/
inductive Status : Type
  | S | E | I | R | D
  deriving DecidableEq

/-- The subset of `Person` state that the verified claims depend on
(motion state, infection state, and the building/coordinate data used by
the population engine's contact checks). Positions are exact rationals;
see the file header about `math.sqrt`. -/
structure Person where
  status : Status
  current_position : ℚ × ℚ
  home_position : ℚ × ℚ
  office_position : Option (ℚ × ℚ)
  home_location : Node
  office_location : Node
  home_radius : ℤ
  office_radius : ℤ
  home_to_office_route : List (ℚ × ℚ)
  office_to_home_route : List (ℚ × ℚ)
  route : List (ℚ × ℚ)
  route_index : ℕ
  moving : Bool
  speed : ℚ
  incubation_time : ℚ
  seconds_per_hour : ℚ
  deriving DecidableEq

/-- Embedding of `Person.get_radius`: the home radius when the current
position equals the home position, the office radius otherwise. -/
def Person.get_radius (p : Person) : ℤ :=
  if p.current_position = p.home_position then p.home_radius else p.office_radius

/-- Embedding of `Person.set_status`. -/
def Person.set_status (p : Person) (st : Status) : Person :=
  { p with status := st }

/-- Embedding of `Person.update_infection_status`, with the random draw
source made explicit as a stream `oracle` and a cursor `k` (the returned
number is the new cursor).  `E` decrements the incubation time and flips
to `I` at `≤ 0`; `I` rolls `recover()` and, only if that fails, `die()`. -/
def Person.update_infection_status (d : Disease) (oracle : ℕ → ℤ)
    (p : Person) (k : ℕ) : Person × ℕ :=
  if p.status = Status.E then
    let t := p.incubation_time - p.seconds_per_hour
    if t ≤ 0 then ({ p with incubation_time := t, status := Status.I }, k)
    else ({ p with incubation_time := t }, k)
  else if p.status = Status.I then
    if d.recover (oracle k) then ({ p with status := Status.R }, k + 1)
    else if d.die (oracle (k + 1)) then
      ({ p with status := Status.D, moving := false }, k + 2)
    else (p, k + 2)
  else (p, k)

/-! ### Claim C6: the three Bernoulli trials -/

/-- Counterexample for C6.  The claim says the trials draw a uniform
integer from the 1000 values `0..999` (`[0, 1000)`); Python's
`random.randint(0, 1000)` is inclusive at both ends, so the draw set is
`0..1000`, which has 1001 elements and contains 1000. -/
theorem randint_not_Ico_counterexample :
    randintRange.card = 1001 ∧ (1000 : ℤ) ∈ randintRange ∧
      (1000 : ℤ) ∉ Finset.Ico (0 : ℤ) 1000 := by
  refine ⟨?_, ?_, ?_⟩
  · simp [randintRange, Int.card_Icc]
  · simp [randintRange]
  · simp

/-- Amended C6: each of the three trials succeeds exactly when the drawn
integer is less than the corresponding hourly probability times 1000,
where the hourly probability is the constructor's daily rate divided by
24 — but the draw is uniform over the 1001 values `0..1000`
(`randint(0, 1000)` inclusive), not over `[0, 1000)`. -/
theorem disease_trials_millirate (ir it rr mr sph : ℚ) (draw : ℤ) :
    ((Disease.make ir it rr mr sph).infect draw = true ↔ (draw : ℚ) < ir / 24 * 1000) ∧
    ((Disease.make ir it rr mr sph).recover draw = true ↔ (draw : ℚ) < rr / 24 * 1000) ∧
    ((Disease.make ir it rr mr sph).die draw = true ↔ (draw : ℚ) < mr / 24 * 1000) ∧
    randintRange = Finset.Icc (0 : ℤ) 1000 := by
  refine ⟨?_, ?_, ?_, rfl⟩ <;>
    simp [Disease.make, Disease.infect, Disease.recover, Disease.die]

/-! ### Claim C7: recovery with daily rate 1.0 is not certain -/

/-- A concrete infectious agent used in several counterexamples. -/
def personI : Person :=
  { status := Status.I
    current_position := (0, 0)
    home_position := (0, 0)
    office_position := none
    home_location := (0, 0)
    office_location := (0, 0)
    home_radius := 5
    office_radius := 5
    home_to_office_route := []
    office_to_home_route := []
    route := []
    route_index := 0
    moving := false
    speed := 1
    incubation_time := 0
    seconds_per_hour := 1 }

/-- Counterexample for C7.  With `recovery_rate = 1.0` and
`mortality_rate = 0.0` the stored hourly recovery rate is `1/24`, so
`recover()` compares the draw against `1000/24 ≈ 41.7`; a draw of `500`
fails the trial and the agent stays `I` on the next hourly update —
recovery is not certain. -/
theorem recover_rate_one_not_certain_counterexample :
    (Disease.make 0 0 1 0 1).recover 500 = false ∧
      (Person.update_infection_status (Disease.make 0 0 1 0 1)
          (fun _ => 500) personI 0).1.status = Status.I := by
  constructor
  · simp [Disease.make, Disease.recover]
    norm_num
  · simp [Person.update_infection_status, personI, Disease.make,
      Disease.recover, Disease.die]
    norm_num

/-- Amended C7: for an agent in state `I` under a disease constructed with
`recovery_rate = 1.0` and `mortality_rate = 0.0`, the next hourly update
moves the agent to `R` exactly when the recover draw `r` satisfies
`r < 1000/24` (that is, `r ≤ 41`); otherwise the agent remains `I` — it
never becomes `D`, since the mortality threshold is `0`. -/
theorem recover_rate_one_iff_draw (p : Person) (oracle : ℕ → ℤ) (k : ℕ)
    (hI : p.status = Status.I) (hdraws : ∀ j, oracle j ∈ randintRange) :
    ((Person.update_infection_status (Disease.make 0 0 1 0 1) oracle p k).1.status
        = Status.R ↔ (oracle k : ℚ) < 1000 / 24) ∧
    ((Person.update_infection_status (Disease.make 0 0 1 0 1) oracle p k).1.status
        = Status.I ↔ ¬ ((oracle k : ℚ) < 1000 / 24)) ∧
    (Person.update_infection_status (Disease.make 0 0 1 0 1) oracle p k).1.status
        ≠ Status.D := by
  have hne : p.status ≠ Status.E := by rw [hI]; intro h; cases h
  unfold Person.update_infection_status
  rw [if_neg hne, if_pos hI]
  by_cases hrec : (Disease.make 0 0 1 0 1).recover (oracle k) = true
  · have hq : ((oracle k : ℚ) < 1000 / 24) := by
      have h2 := of_decide_eq_true hrec
      simp only [Disease.make] at h2
      linarith
    simp only [hrec, if_true]
    refine ⟨by simpa using hq, ?_, by simp⟩
    constructor
    · intro h; cases h
    · intro h; exact absurd hq h
  · have hq : ¬ ((oracle k : ℚ) < 1000 / 24) := by
      intro hc
      exact hrec (by
        simp only [Disease.make, Disease.recover, decide_eq_true_eq]
        linarith)
    have h0 : (0 : ℤ) ≤ oracle (k + 1) := by
      have := hdraws (k + 1)
      simp only [randintRange, Finset.mem_Icc] at this
      exact this.1
    have hdie : (Disease.make 0 0 1 0 1).die (oracle (k + 1)) = false := by
      simp only [Disease.make, Disease.die, decide_eq_false_iff_not, not_lt]
      have : (0 : ℚ) ≤ (oracle (k + 1) : ℚ) := by exact_mod_cast h0
      linarith
    simp only [hrec, if_false, Bool.false_eq_true, hdie]
    refine ⟨?_, ?_, ?_⟩
    · rw [hI]
      constructor
      · intro h; cases h
      · intro h; exact absurd h hq
    · rw [hI]; simpa using hq
    · rw [hI]; intro h; cases h

/-- Witness for `recover_rate_one_iff_draw` at a concrete agent and a
concrete draw of 10 (which is below the `1000/24` threshold, so the agent
recovers). -/
theorem recover_rate_one_iff_draw_witness :
    personI.status = Status.I ∧
      (Person.update_infection_status (Disease.make 0 0 1 0 1)
          (fun _ => 10) personI 0).1.status = Status.R :=
  ⟨rfl, ((recover_rate_one_iff_draw personI (fun _ => 10) 0 rfl
      (fun _ => show (10 : ℤ) ∈ randintRange by
        simp [randintRange, Finset.mem_Icc])).1).2 (by norm_num)⟩

/-! ### PriorityQueue (src/dijkstra.py)

The queue stores `(priority, item)` pairs in a Python list.  `insert_item`
appends and bubbles up; `pop_item` pops **index 0** with `list.pop(0)`
(shifting every remaining element left) and then bubbles down from the
root.  The bubble functions are defined with an explicit structural fuel
so that they reduce in the kernel; the wrappers supply fuel that is
provably sufficient (bubbling up strictly decreases the index, bubbling
down strictly increases it below the fixed list length), so the
fuel-exhaustion branches are unreachable. -/

/-- Queue entries: `(priority, item)` as stored in `__elements`. -/
abbrev QEntry : Type := ℕ × Node

/-- Priority stored at index `i` (the source only indexes in bounds; the
default is irrelevant). -/
def qprio (l : List QEntry) (i : ℕ) : ℕ := (l.getD i (0, (0, 0))).1

/-- Python's parallel assignment `a[i], a[j] = a[j], a[i]`. -/
def listSwap {α : Type} (l : List α) (i j : ℕ) : List α :=
  match l.get? i, l.get? j with
  | some a, some b => (l.set i b).set j a
  | _, _ => l

theorem listSwap_length {α : Type} (l : List α) (i j : ℕ) :
    (listSwap l i j).length = l.length := by
  unfold listSwap
  cases l.get? i <;> cases l.get? j <;> simp

/-- Fuelled embedding of `PriorityQueue.__bubble_up`. -/
def bubble_up_fuel : ℕ → List QEntry → ℕ → List QEntry
  | 0, l, _ => l
  | fuel + 1, l, index =>
    if 0 < index ∧ qprio l index < qprio l ((index - 1) / 2) then
      bubble_up_fuel fuel (listSwap l index ((index - 1) / 2)) ((index - 1) / 2)
    else l

/-- Embedding of `PriorityQueue.__bubble_up` (the index strictly
decreases on each recursive call, so fuel `index + 1` is sufficient). -/
def bubble_up (l : List QEntry) (index : ℕ) : List QEntry :=
  bubble_up_fuel (index + 1) l index

/-- Fuelled embedding of `PriorityQueue.__bubble_down`. -/
def bubble_down_fuel : ℕ → List QEntry → ℕ → List QEntry
  | 0, l, _ => l
  | fuel + 1, l, index =>
    if 2 * index + 1 < l.length then
      let ci := if 2 * index + 2 < l.length ∧
                    qprio l (2 * index + 2) < qprio l (2 * index + 1)
                then 2 * index + 2 else 2 * index + 1
      if qprio l ci < qprio l index then
        bubble_down_fuel fuel (listSwap l index ci) ci
      else l
    else l

/-- Embedding of `PriorityQueue.__bubble_down` (each recursive call moves
to a child index `> index` while the length is preserved, so fuel
`l.length` is sufficient: the recursion stops on its own before the fuel
can run out). -/
def bubble_down (l : List QEntry) (index : ℕ) : List QEntry :=
  bubble_down_fuel l.length l index

/-- Embedding of `PriorityQueue.is_empty`. -/
def pq_is_empty (l : List QEntry) : Bool := decide (l.length = 0)

/-- Embedding of `PriorityQueue.insert_item`: append, then bubble up from
the last index. -/
def insert_item (l : List QEntry) (item : Node) (priority : ℕ) : List QEntry :=
  bubble_up (l ++ [(priority, item)]) l.length

/-- Embedding of `PriorityQueue.pop_item`.  Raising `IndexError` on an
empty queue becomes `none`.  A singleton list is popped from the back
(`list.pop()`); otherwise the source pops **index 0** (`list.pop(0)`,
which shifts all elements left) and bubbles down from the root.  Returns
the popped `(priority, item)` pair together with the remaining list (the
source returns `item[1]`, the item component). -/
def pop_item (l : List QEntry) : Option (QEntry × List QEntry) :=
  match l with
  | [] => none
  | [e] => some (e, [])
  | e :: rest => some (e, bubble_down rest 0)

/-! ### Claim C3: the pop(0) heap bug -/

/-- Queue state after inserting priorities 0, 1, 20, 2, 3, 21, 22 into an
empty queue (items are distinct dummy nodes). -/
def pqTrace7 : List QEntry :=
  insert_item (insert_item (insert_item (insert_item (insert_item (insert_item
    (insert_item [] (1, 0) 0) (2, 0) 1) (3, 0) 20) (4, 0) 2) (5, 0) 3)
      (6, 0) 21) (7, 0) 22

/-- Queue state after the further operations pop; insert 0; pop; pop. -/
def pqTrace10 : List QEntry :=
  ((pop_item ((pop_item (insert_item ((pop_item pqTrace7).getD default).2
      (8, 0) 0)).getD default).2).getD default).2

/-- Claim C3 fails on the code: `pop_item` uses `list.pop(0)` instead of
the standard swap-with-last heap extraction, so the shifted list stops
being a heap and a later pop can return a non-minimal element.  After
inserting priorities 0, 1, 20, 2, 3, 21, 22 into an empty queue, popping,
inserting priority 0, and popping twice more, the queue holds priorities
{3, 2, 21, 22, 20}; the next `pop_item` returns the entry with priority 3
even though an entry with priority 2 is in the queue. -/
theorem pop_item_returns_nonminimal :
    (pop_item pqTrace10).map (fun r => r.1.1) = some 3 ∧
      (2, ((4 : ℤ), (0 : ℤ))) ∈ pqTrace10 := by
  constructor <;> decide

/-! ### Person motion (src/infectious_disease_simulation/person.py) -/

/-- Embedding of `Person.update_position`.  A deceased person only has the
moving flag cleared (drawing is display-only).  A moving person either
snaps onto the next waypoint (when closer than `speed`) and advances the
route cursor, or moves by `speed` along the normalised direction vector.
`math.sqrt` is the explicit parameter `sqrtFn` (see the file header). -/
def Person.update_position (sqrtFn : ℚ → ℚ) (p : Person) : Person :=
  if p.status = Status.D then { p with moving := false }
  else if p.moving && decide (p.route_index < p.route.length) then
    let next := p.route.getD p.route_index (0, 0)
    let dx := next.1 - p.current_position.1
    let dy := next.2 - p.current_position.2
    let distance := sqrtFn (dx ^ 2 + dy ^ 2)
    if distance < p.speed then
      let p1 := { p with current_position := next, route_index := p.route_index + 1 }
      if p.route_index + 1 ≥ p.route.length then { p1 with moving := false } else p1
    else
      { p with current_position :=
          (p.current_position.1 + dx / distance * p.speed,
           p.current_position.2 + dy / distance * p.speed) }
  else p

/-- Embedding of `Person.start_move_to_office`. -/
def Person.start_move_to_office (p : Person) : Person :=
  if p.status ≠ Status.D then
    { p with route := p.home_to_office_route, route_index := 0, moving := true }
  else p

/-- Embedding of `Person.start_move_to_home`. -/
def Person.start_move_to_home (p : Person) : Person :=
  if p.status ≠ Status.D then
    { p with route := p.office_to_home_route, route_index := 0, moving := true }
  else p

/-! ### Population engine (src/infectious_disease_simulation/population.py) -/

/-- Default person used for out-of-range `getD` accesses (the source
holds object references, so such accesses never happen along verified
executions; the default is inert: susceptible and not moving). -/
def personDefault : Person := { personI with status := Status.S }

/-- The read-only collaborators of the population engine: the square-root
function, the shared `Disease`, the precomputed route-intersection
candidate lists (`__route_intersections`, by roster index), the building
occupant lists (by building location, yielding roster indices) and the
random draw stream. -/
structure Engine where
  sqrtFn : ℚ → ℚ
  disease : Disease
  candidates : ℕ → List ℕ
  home_occupants : Node → List ℕ
  office_occupants : Node → List ℕ
  oracle : ℕ → ℤ

/-- Mutable engine state: the agent roster and the cursor into the
random draw stream. -/
structure PopState where
  people : List Person
  drawIdx : ℕ
  deriving DecidableEq

/-- Embedding of `Population.__calculate_distance`. -/
def calculate_distance (sqrtFn : ℚ → ℚ) (pos1 pos2 : ℚ × ℚ) : ℚ :=
  sqrtFn ((pos1.1 - pos2.1) ^ 2 + (pos1.2 - pos2.2) ^ 2)

/-- Embedding of `Population.__check_interactions` for the individual at
roster index `i`: if it is infectious, each candidate that is susceptible
and within twice the individual's radius is subjected to one infection
trial (one draw is consumed per such candidate, none otherwise). -/
def check_interactions (en : Engine) (i : ℕ) (s : PopState) : PopState :=
  if (s.people.getD i personDefault).status = Status.I then
    (en.candidates i).foldl (fun st j =>
      let ind := st.people.getD i personDefault
      let other := st.people.getD j personDefault
      if other.status = Status.S ∧
          calculate_distance en.sqrtFn ind.current_position other.current_position
            ≤ 2 * (ind.get_radius : ℚ) then
        if en.disease.infect (en.oracle st.drawIdx) then
          { people := st.people.set j (other.set_status Status.E),
            drawIdx := st.drawIdx + 1 }
        else { st with drawIdx := st.drawIdx + 1 }
      else st) s
  else s

/-- Embedding of `Population.update_positions`: for every agent in roster
order, advance its motion and then immediately run its contact checks
(the interleaving as implemented). -/
def Population.update_positions (en : Engine) (s : PopState) : PopState :=
  (List.range s.people.length).foldl (fun st i =>
    check_interactions en i
      { st with people :=
          st.people.set i ((st.people.getD i personDefault).update_position en.sqrtFn) }) s

/-- The two-phase tick described by the specification: first every
agent's motion is advanced, and only then every infectious agent's
contact checks are run, in roster order. -/
def Population.update_positions_two_phase (en : Engine) (s : PopState) : PopState :=
  let s1 : PopState := { s with people := s.people.map (Person.update_position en.sqrtFn) }
  (List.range s1.people.length).foldl (fun st i => check_interactions en i st) s1

/-- Embedding of `Population.__check_building_interactions`: every
infectious agent that is exactly at its home (resp. office) position
infects each susceptible occupant of that building with one trial each. -/
def check_building_interactions (en : Engine) (s : PopState) : PopState :=
  (List.range s.people.length).foldl (fun st i =>
    let ind := st.people.getD i personDefault
    if ind.status = Status.I then
      let occupants :=
        if ind.current_position = ind.home_position then
          en.home_occupants ind.home_location
        else if some ind.current_position = ind.office_position then
          en.office_occupants ind.office_location
        else []
      occupants.foldl (fun st2 j =>
        let occ := st2.people.getD j personDefault
        if occ.status = Status.S then
          if en.disease.infect (en.oracle st2.drawIdx) then
            { people := st2.people.set j (occ.set_status Status.E),
              drawIdx := st2.drawIdx + 1 }
          else { st2 with drawIdx := st2.drawIdx + 1 }
        else st2) st
    else st) s

/-- Embedding of `Population.update_infection_status` (the hourly
update): building interactions first, then every agent's own infection
state machine step. -/
def Population.update_infection_status (en : Engine) (s : PopState) : PopState :=
  let s1 := check_building_interactions en s
  (List.range s1.people.length).foldl (fun st i =>
    let r := Person.update_infection_status en.disease en.oracle
      (st.people.getD i personDefault) st.drawIdx
    { people := st.people.set i r.1, drawIdx := r.2 }) s1

/-- Embedding of `Population.move_to_offices`. -/
def Population.move_to_offices (s : PopState) : PopState :=
  { s with people := s.people.map Person.start_move_to_office }

/-- Embedding of `Population.move_to_homes`. -/
def Population.move_to_homes (s : PopState) : PopState :=
  { s with people := s.people.map Person.start_move_to_home }

/-! ### Claim C5: the per-tick interleaving is not the two-phase tick

The implemented tick interleaves each agent's motion with its contact
checks, so an infectious agent early in the roster tests a later agent at
that agent's pre-move position, while the two-phase procedure of the
specification would test it at its post-move position.  The
counterexample below exhibits exactly that divergence.  The square-root
function is only ever evaluated at the perfect squares 1, 2401 and 2500
along this execution, where `sqrtC5` agrees with the exact square root. -/

/-- Square-root stand-in for the C5 counterexample; correct at every
point at which the counterexample evaluates it (1, 2401, 2500). -/
def sqrtC5 (q : ℚ) : ℚ :=
  if q = 1 then 1 else if q = 2401 then 49 else if q = 2500 then 50 else 0

/-- A susceptible agent one unit away from `personI`, about to move to
`(50, 0)` in a single snap step. -/
def personS5 : Person :=
  { status := Status.S
    current_position := (1, 0)
    home_position := (7, 7)
    office_position := none
    home_location := (0, 0)
    office_location := (0, 0)
    home_radius := 5
    office_radius := 5
    home_to_office_route := []
    office_to_home_route := []
    route := [(50, 0)]
    route_index := 0
    moving := true
    speed := 1000
    incubation_time := 0
    seconds_per_hour := 1 }

/-- Engine for the C5 counterexample: infection trials always succeed
(daily rate 48 gives hourly rate 2, threshold 2000 > any draw), agent 0's
candidate list is agent 1. -/
def engineC5 : Engine :=
  { sqrtFn := sqrtC5
    disease := Disease.make 48 0 0 0 1
    candidates := fun i => if i = 0 then [1] else []
    home_occupants := fun _ => []
    office_occupants := fun _ => []
    oracle := fun _ => 0 }

/-- Initial state for the C5 counterexample: the stationary infectious
`personI` at the origin and the moving susceptible `personS5`. -/
def stateC5 : PopState := { people := [personI, personS5], drawIdx := 0 }

/-- The result of `personS5`'s motion step: it snaps onto `(50, 0)`. -/
def personS5moved : Person :=
  { personS5 with current_position := (50, 0), route_index := 1, moving := false }

theorem updI_eval : Person.update_position sqrtC5 personI = personI := by
  simp [Person.update_position, personI]

theorem updS_eval : Person.update_position sqrtC5 personS5 = personS5moved := by
  simp only [Person.update_position, personS5, personS5moved]
  norm_num [sqrtC5]
  decide

theorem updSE_eval :
    Person.update_position sqrtC5 (personS5.set_status Status.E)
      = personS5moved.set_status Status.E := by
  simp only [Person.update_position, Person.set_status, personS5, personS5moved]
  norm_num [sqrtC5]
  decide

theorem chk0pre_eval :
    check_interactions engineC5 0 { people := [personI, personS5], drawIdx := 0 }
      = { people := [personI, personS5.set_status Status.E], drawIdx := 1 } := by
  simp only [check_interactions, engineC5]
  norm_num [personI, personS5, personDefault, calculate_distance, sqrtC5,
    Person.get_radius, Disease.make, Disease.infect, Person.set_status]

theorem chk0post_eval :
    check_interactions engineC5 0 { people := [personI, personS5moved], drawIdx := 0 }
      = { people := [personI, personS5moved], drawIdx := 0 } := by
  simp only [check_interactions, engineC5]
  norm_num [personI, personS5, personS5moved, personDefault, calculate_distance,
    sqrtC5, Person.get_radius, Disease.make, Disease.infect, Person.set_status]

theorem chk1skip_eval (st : PopState)
    (h : (st.people.getD 1 personDefault).status ≠ Status.I) :
    check_interactions engineC5 1 st = st := by
  simp only [check_interactions, engineC5]
  rw [if_neg h]

/-- Counterexample for C5.  In the implemented tick the stationary
infectious agent 0 tests agent 1 *before* agent 1 moves: at distance 1 it
infects it (the trial always succeeds), and agent 1 ends the tick exposed
at `(50, 0)`.  In the all-motion-first ordering agent 1 has already
snapped to `(50, 0)`, distance 50 exceeds twice the radius, and agent 1
ends the tick still susceptible.  The two procedures therefore produce
different states from the same input and the same draw stream. -/
theorem tick_interleaving_counterexample :
    ((Population.update_positions engineC5 stateC5).people.getD 1 personDefault).status
        = Status.E ∧
      ((Population.update_positions_two_phase engineC5 stateC5).people.getD 1
          personDefault).status = Status.S := by
  constructor
  · have h1 : Population.update_positions engineC5 stateC5
        = { people := [personI, personS5moved.set_status Status.E], drawIdx := 1 } := by
      show (List.range 2).foldl _ _ = _
      rw [show List.range 2 = [0, 1] from rfl]
      simp only [List.foldl_cons, List.foldl_nil]
      have A0 : PopState.mk (stateC5.people.set 0
              (Person.update_position engineC5.sqrtFn (stateC5.people.getD 0 personDefault)))
            stateC5.drawIdx
          = PopState.mk [personI, personS5] 0 := by
        simp [stateC5, engineC5, updI_eval]
      rw [A0, chk0pre_eval]
      have A1 : PopState.mk (([personI, personS5.set_status Status.E] : List Person).set 1
              (Person.update_position engineC5.sqrtFn
                (([personI, personS5.set_status Status.E] : List Person).getD 1 personDefault)))
            (1 : ℕ)
          = PopState.mk [personI, personS5moved.set_status Status.E] 1 := by
        simp [engineC5, updSE_eval]
      rw [A1]
      exact chk1skip_eval _ (by simp [Person.set_status, personS5moved])
    rw [h1]
    rfl
  · have hmap : stateC5.people.map (Person.update_position engineC5.sqrtFn)
        = [personI, personS5moved] := by
      simp [stateC5, engineC5, updI_eval, updS_eval]
    have h1 : Population.update_positions_two_phase engineC5 stateC5
        = { people := [personI, personS5moved], drawIdx := 0 } := by
      show (List.range _).foldl _ _ = _
      rw [hmap]
      rw [show List.range ([personI, personS5moved] : List Person).length = [0, 1]
        from rfl]
      simp only [List.foldl_cons, List.foldl_nil]
      rw [show stateC5.drawIdx = 0 from rfl, chk0post_eval]
      exact chk1skip_eval _ (by simp [personS5moved, personS5])
    rw [h1]
    rfl

/-! ### Amended C5: the two orderings agree when nobody is mid-route -/

theorem set_getD_self {α : Type} (l : List α) (i : ℕ) (d : α) :
    l.set i (l.getD i d) = l := by
  induction l generalizing i with
  | nil => rfl
  | cons a t ih =>
    cases i with
    | zero => rfl
    | succ n =>
      show a :: t.set n ((a :: t).getD (n + 1) d) = a :: t
      rw [show (a :: t).getD (n + 1) d = t.getD n d from rfl, ih]

/-- A generic fold-invariant lemma used throughout the engine proofs. -/
theorem foldl_inv {α σ : Type} (Inv : σ → Prop) (f : σ → α → σ)
    (hf : ∀ st a, Inv st → Inv (f st a)) :
    ∀ (l : List α) (s : σ), Inv s → Inv (l.foldl f s) := by
  intro l
  induction l with
  | nil => intro s hs; exact hs
  | cons a t ih => intro s hs; exact ih (f s a) (hf s a hs)

/-- No member of the roster is mid-route. -/
def AllNotMoving (s : PopState) : Prop := ∀ p ∈ s.people, p.moving = false

theorem update_position_of_not_moving (sqrtFn : ℚ → ℚ) (p : Person)
    (h : p.moving = false) : Person.update_position sqrtFn p = p := by
  unfold Person.update_position
  rw [h]
  cases p
  simp_all

theorem getD_moving_false (s : PopState) (h : AllNotMoving s) (j : ℕ) :
    (s.people.getD j personDefault).moving = false := by
  rcases lt_or_le j s.people.length with hj | hj
  · rw [List.getD_eq_getElem s.people personDefault hj]
    exact h _ (s.people.getElem_mem hj)
  · rw [List.getD_eq_default _ _ hj]
    rfl

theorem check_interactions_not_moving (en : Engine) (i : ℕ) (s : PopState)
    (h : AllNotMoving s) : AllNotMoving (check_interactions en i s) := by
  unfold check_interactions
  split
  · refine foldl_inv AllNotMoving _ ?_ _ _ h
    intro st j hst
    dsimp only
    split
    · split
      · intro p hp
        rcases List.mem_or_eq_of_mem_set hp with hp | hp
        · exact hst p hp
        · subst hp
          show (st.people.getD j personDefault).moving = false
          exact getD_moving_false st hst j
      · exact hst
    · exact hst
  · exact h

theorem check_step_of_stationary (en : Engine) (i : ℕ) (st : PopState)
    (h : AllNotMoving st) :
    check_interactions en i
        (PopState.mk (st.people.set i
          (Person.update_position en.sqrtFn (st.people.getD i personDefault)))
          st.drawIdx)
      = check_interactions en i st := by
  rw [update_position_of_not_moving en.sqrtFn _ (getD_moving_false st h i),
    set_getD_self]

/-- Amended C5: the implemented interleaved tick and the specification's
all-motion-first two-phase tick produce the same state whenever no agent
is mid-route (every `moving` flag is false), e.g. between commutes; in
general they differ (see `tick_interleaving_counterexample`). -/
theorem tick_eq_two_phase_of_stationary (en : Engine) (s : PopState)
    (h : AllNotMoving s) :
    Population.update_positions en s = Population.update_positions_two_phase en s := by
  have hmap : s.people.map (Person.update_position en.sqrtFn) = s.people := by
    rw [show s.people.map (Person.update_position en.sqrtFn)
          = s.people.map id from
        List.map_congr_left (fun p hp => update_position_of_not_moving _ _ (h p hp)),
      List.map_id]
  unfold Population.update_positions Population.update_positions_two_phase
  rw [hmap]
  have : ∀ (l : List ℕ) (st : PopState), AllNotMoving st →
      l.foldl (fun st2 i => check_interactions en i
          (PopState.mk (st2.people.set i
            (Person.update_position en.sqrtFn (st2.people.getD i personDefault)))
            st2.drawIdx)) st
        = l.foldl (fun st2 i => check_interactions en i st2) st := by
    intro l
    induction l with
    | nil => intro st _; rfl
    | cons a t ih =>
      intro st hst
      simp only [List.foldl_cons]
      rw [check_step_of_stationary en a st hst]
      exact ih _ (check_interactions_not_moving en a st hst)
  exact this _ s h

/-- Witness for `tick_eq_two_phase_of_stationary` on a concrete
single-agent state. -/
theorem tick_eq_two_phase_of_stationary_witness :
    AllNotMoving (PopState.mk [personI] 0) ∧
      Population.update_positions engineC5 (PopState.mk [personI] 0)
        = Population.update_positions_two_phase engineC5 (PopState.mk [personI] 0) := by
  have h : AllNotMoving (PopState.mk [personI] 0) := by
    intro p hp
    rw [List.mem_singleton] at hp
    subst hp
    rfl
  exact ⟨h, tick_eq_two_phase_of_stationary engineC5 _ h⟩

/-! ### Claim C9: R and D are terminal -/

/-- Terminal-state preservation between two snapshots of one person:
`R` stays `R`; `D` stays `D` and keeps its position. -/
def TermPres (p q : Person) : Prop :=
  (p.status = Status.R → q.status = Status.R) ∧
  (p.status = Status.D → q.status = Status.D ∧ q.current_position = p.current_position)

theorem termPres_refl (p : Person) : TermPres p p :=
  ⟨fun h => h, fun h => ⟨h, Eq.refl _⟩⟩

theorem termPres_trans {p q r : Person} (h1 : TermPres p q) (h2 : TermPres q r) :
    TermPres p r := by
  refine ⟨fun h => h2.1 (h1.1 h), fun h => ?_⟩
  obtain ⟨hq, hqp⟩ := h1.2 h
  obtain ⟨hr, hrq⟩ := h2.2 hq
  exact ⟨hr, hrq.trans hqp⟩

/-- Pointwise terminal-state preservation between engine states. -/
def StatePres (s s' : PopState) : Prop :=
  ∀ i, TermPres (s.people.getD i personDefault) (s'.people.getD i personDefault)

theorem StatePres.refl (s : PopState) : StatePres s s := fun _ => termPres_refl _

theorem StatePres.trans {s t u : PopState} (h1 : StatePres s t) (h2 : StatePres t u) :
    StatePres s u := fun i => termPres_trans (h1 i) (h2 i)

/-- Setting index `j` to a person related to the old occupant preserves
every terminal state. -/
theorem StatePres_set (st : PopState) (j : ℕ) (x : Person) (dI : ℕ)
    (hx : TermPres (st.people.getD j personDefault) x) :
    StatePres st (PopState.mk (st.people.set j x) dI) := by
  intro i
  show TermPres (st.people.getD i personDefault) ((st.people.set j x).getD i personDefault)
  unfold List.getD
  rw [List.get?_eq_getElem?, List.get?_eq_getElem?, List.getElem?_set]
  by_cases hji : j = i
  · subst hji
    by_cases hj : j < st.people.length
    · simp only [hj, if_true]
      simpa [List.getD, List.get?_eq_getElem?] using hx
    · simp only [hj, if_true, if_false]
      rw [List.getElem?_eq_none (le_of_not_lt hj)]
      exact termPres_refl _
  · rw [if_neg hji]
    exact termPres_refl _

theorem foldl_statePres {α : Type} (f : PopState → α → PopState)
    (hf : ∀ st a, StatePres st (f st a)) :
    ∀ (l : List α) (s : PopState), StatePres s (l.foldl f s) := by
  intro l
  induction l with
  | nil => intro s; exact StatePres.refl s
  | cons a t ih => intro s; exact (hf s a).trans (ih (f s a))

theorem update_position_termPres (sqrtFn : ℚ → ℚ) (p : Person) :
    TermPres p (Person.update_position sqrtFn p) := by
  unfold Person.update_position
  constructor
  · intro h
    rw [if_neg (by rw [h]; exact fun hc => Status.noConfusion hc)]
    dsimp only
    split
    · split
      · split
        · exact h
        · exact h
      · exact h
    · exact h
  · intro h
    rw [if_pos h]
    exact ⟨h, Eq.refl _⟩

theorem update_infection_status_termPres (d : Disease) (oracle : ℕ → ℤ)
    (p : Person) (k : ℕ) :
    TermPres p (Person.update_infection_status d oracle p k).1 := by
  unfold Person.update_infection_status
  constructor
  · intro h
    rw [if_neg (by rw [h]; exact fun hc => Status.noConfusion hc),
      if_neg (by rw [h]; exact fun hc => Status.noConfusion hc)]
    exact h
  · intro h
    rw [if_neg (by rw [h]; exact fun hc => Status.noConfusion hc),
      if_neg (by rw [h]; exact fun hc => Status.noConfusion hc)]
    exact ⟨h, Eq.refl _⟩

theorem start_move_to_office_termPres (p : Person) :
    TermPres p p.start_move_to_office := by
  unfold Person.start_move_to_office
  constructor
  · intro h
    split
    · exact h
    · exact h
  · intro h
    rw [if_neg (by rw [h]; exact fun hc => hc (Eq.refl _))]
    exact ⟨h, Eq.refl _⟩

theorem start_move_to_home_termPres (p : Person) :
    TermPres p p.start_move_to_home := by
  unfold Person.start_move_to_home
  constructor
  · intro h
    split
    · exact h
    · exact h
  · intro h
    rw [if_neg (by rw [h]; exact fun hc => hc (Eq.refl _))]
    exact ⟨h, Eq.refl _⟩

/-- An infection attempt on the person at index `j` (guarded by that
person being susceptible) preserves terminal states. -/
theorem infect_branch_statePres (st : PopState) (j : ℕ) (dI : ℕ)
    (hS : (st.people.getD j personDefault).status = Status.S) :
    StatePres st (PopState.mk
      (st.people.set j ((st.people.getD j personDefault).set_status Status.E)) dI) := by
  refine StatePres_set st j _ dI ?_
  constructor
  · intro h; rw [hS] at h; cases h
  · intro h; rw [hS] at h; cases h

theorem check_interactions_statePres (en : Engine) (i : ℕ) (st : PopState) :
    StatePres st (check_interactions en i st) := by
  unfold check_interactions
  split
  · refine foldl_statePres _ ?_ _ _
    intro st2 j
    dsimp only
    split
    · split
      · exact infect_branch_statePres st2 j _ (by
          rename_i hcond _
          exact hcond.1)
      · intro l; exact termPres_refl _
    · exact StatePres.refl st2
  · exact StatePres.refl st

theorem check_building_interactions_statePres (en : Engine) (s : PopState) :
    StatePres s (check_building_interactions en s) := by
  unfold check_building_interactions
  refine foldl_statePres _ ?_ _ _
  intro st i
  dsimp only
  split
  · refine foldl_statePres _ ?_ _ _
    intro st2 j
    dsimp only
    split
    · split
      · exact infect_branch_statePres st2 j _ (by assumption)
      · intro l; exact termPres_refl _
    · exact StatePres.refl st2
  · exact StatePres.refl st

theorem update_positions_statePres (en : Engine) (s : PopState) :
    StatePres s (Population.update_positions en s) := by
  unfold Population.update_positions
  refine foldl_statePres _ ?_ _ _
  intro st i
  exact (StatePres_set st i _ st.drawIdx
      (update_position_termPres en.sqrtFn _)).trans
    (check_interactions_statePres en i _)

theorem update_infection_status_statePres (en : Engine) (s : PopState) :
    StatePres s (Population.update_infection_status en s) := by
  unfold Population.update_infection_status
  refine (check_building_interactions_statePres en s).trans ?_
  refine foldl_statePres _ ?_ _ _
  intro st i
  exact StatePres_set st i _ _ (update_infection_status_termPres _ _ _ _)

theorem map_statePres (f : Person → Person) (hf : ∀ p, TermPres p (f p))
    (s : PopState) (dI : ℕ) :
    StatePres s (PopState.mk (s.people.map f) dI) := by
  intro i
  show TermPres (s.people.getD i personDefault) ((s.people.map f).getD i personDefault)
  unfold List.getD
  rw [List.get?_eq_getElem?, List.get?_eq_getElem?, List.getElem?_map]
  cases hcell : s.people[i]? with
  | none => exact termPres_refl _
  | some p => exact hf p

/-- One engine operation of the kind the driving loop performs. -/
inductive SimOp : Type
  | tick | hourly | toOffices | toHomes

/-- Apply one engine operation. -/
def applyOp (en : Engine) (s : PopState) : SimOp → PopState
  | .tick => Population.update_positions en s
  | .hourly => Population.update_infection_status en s
  | .toOffices => Population.move_to_offices s
  | .toHomes => Population.move_to_homes s

/-- Apply a sequence of engine operations. -/
def applyOps (en : Engine) (ops : List SimOp) (s : PopState) : PopState :=
  ops.foldl (applyOp en) s

theorem applyOp_statePres (en : Engine) (s : PopState) (op : SimOp) :
    StatePres s (applyOp en s op) := by
  cases op
  · exact update_positions_statePres en s
  · exact update_infection_status_statePres en s
  · exact map_statePres _ start_move_to_office_termPres s _
  · exact map_statePres _ start_move_to_home_termPres s _

/-- Claim C9, confirmed: `R` and `D` are absorbing along every sequence
of engine operations (ticks, hourly updates, commute starts): an agent in
state `R` or `D` never changes status again, and a deceased agent never
changes position.  Engine-level infection is only ever applied to agents
checked to be `S`, and a deceased agent's position update is a no-op. -/
theorem terminal_states_absorbing (en : Engine) (ops : List SimOp)
    (s : PopState) (i : ℕ) :
    ((s.people.getD i personDefault).status = Status.R →
      ((applyOps en ops s).people.getD i personDefault).status = Status.R) ∧
    ((s.people.getD i personDefault).status = Status.D →
      ((applyOps en ops s).people.getD i personDefault).status = Status.D ∧
        ((applyOps en ops s).people.getD i personDefault).current_position
          = (s.people.getD i personDefault).current_position) := by
  have : StatePres s (applyOps en ops s) := by
    unfold applyOps
    exact foldl_statePres _ (fun st op => applyOp_statePres en st op) ops s
  exact this i

/-- Witness for `terminal_states_absorbing`: a concrete recovered agent
stays recovered across a tick followed by an hourly update. -/
theorem terminal_states_absorbing_witness :
    ((PopState.mk [personI.set_status Status.R] 0).people.getD 0 personDefault).status
        = Status.R ∧
      ((applyOps engineC5 [SimOp.tick, SimOp.hourly]
          (PopState.mk [personI.set_status Status.R] 0)).people.getD 0
            personDefault).status = Status.R :=
  ⟨rfl, (terminal_states_absorbing engineC5 [SimOp.tick, SimOp.hourly]
      (PopState.mk [personI.set_status Status.R] 0) 0).1 rfl⟩

/-! ### AdditionalConnections
(src/infectious_disease_simulation/additional_connections.py) -/

/-- Embedding of `__calculate_weight` (identical in `mst.py` and
`additional_connections.py`): `int(math.sqrt(dx**2 + dy**2))`, the floor
of the Euclidean distance between two integer points. -/
def calculate_weight (n1 n2 : Node) : ℕ :=
  Nat.sqrt ((n1.1 - n2.1) ^ 2 + (n1.2 - n2.2) ^ 2).toNat

/-- An MST adjacency dictionary: the key list (dict iteration order) and
the adjacency map. -/
structure MSTGraph where
  keys : List Node
  adj : Node → List (Node × ℕ)

/-- Embedding of `AdditionalConnections.__acw`. -/
def acw (p1 p2 p3 : Node) : Bool :=
  decide ((p3.2 - p1.2) * (p2.1 - p1.1) > (p2.2 - p1.2) * (p3.1 - p1.1))

/-- Embedding of `AdditionalConnections.__do_edges_cross`. -/
def do_edges_cross (a1 a2 b1 b2 : Node) : Bool :=
  (acw a1 b1 b2 != acw a2 b1 b2) && (acw a1 a2 b1 != acw a1 a2 b2)

/-- Embedding of `AdditionalConnections.__crosses_existing_edges`. -/
def crosses_existing_edges (g : MSTGraph) (node1 node2 : Node) : Bool :=
  g.keys.any fun n => (g.adj n).any fun nb => do_edges_cross n nb.1 node1 node2

/-- The inner candidate scan of `add_connections`, returning the pair
`(nearest_node, distance)` of Python locals after the loop.  Note that
`distance` is (re)assigned for **every** distinct `other_node`, not only
for qualifying ones, so after the loop it holds the distance to the last
distinct node scanned, which need not be `nearest_node`. -/
def scan_candidates (g : MSTGraph) (min_distance : ℕ) (node : Node)
    (leaves : List Node) : Option Node × ℕ :=
  leaves.foldl (fun acc other =>
    if node ≠ other then
      let distance := calculate_weight node other
      if min_distance < distance ∧ crosses_existing_edges g node other = false then
        (some other, distance)
      else (acc.1, distance)
    else acc) (none, 0)

/-- One directed adjacency append `mst[a].append((b, w))`. -/
def add_edge (g : MSTGraph) (a b : Node) (w : ℕ) : MSTGraph :=
  { g with adj := Function.update g.adj a (g.adj a ++ [(b, w)]) }

/-- The leaves (`single_connection_nodes`) of an MST dictionary. -/
def single_connection_nodes (g : MSTGraph) : List Node :=
  g.keys.filter fun n => (g.adj n).length = 1

/-- Embedding of `AdditionalConnections.add_connections` (default
`min_distance = 3`): for every originally-single-connection node, scan
all other such nodes and, if a qualifying partner was found, append the
edge to both endpoints' lists using the Python local `distance`. -/
def add_connections (g : MSTGraph) (min_distance : ℕ) : MSTGraph :=
  let leaves := single_connection_nodes g
  leaves.foldl (fun g2 node =>
    let r := scan_candidates g2 min_distance node leaves
    match r.1 with
    | some nearest => add_edge (add_edge g2 node nearest r.2) nearest node r.2
    | none => g2) g

theorem sqrt26 : Nat.sqrt 26 = 5 :=
  le_antisymm (by
    have := Nat.sqrt_lt'.mpr (show 26 < 6 ^ 2 by norm_num)
    omega) (Nat.le_sqrt'.mpr (show 5 ^ 2 ≤ 26 by norm_num))

def gC4 : MSTGraph :=
  { keys := [(2, 3), (7, 4)]
    adj := fun n => if n = ((2 : ℤ), (3 : ℤ)) then [((7, 4), 5)]
           else if n = ((7 : ℤ), (4 : ℤ)) then [((2, 3), 5)] else [] }

theorem cwC4 : calculate_weight (2, 3) (7, 4) = 5 := by
  have h : ((((2, 3) : Node).1 - ((7, 4) : Node).1) ^ 2
      + (((2, 3) : Node).2 - ((7, 4) : Node).2) ^ 2).toNat = 26 := by norm_num; rfl
  unfold calculate_weight
  rw [h, sqrt26]

theorem cwC4r : calculate_weight (7, 4) (2, 3) = 5 := by
  have h : ((((7, 4) : Node).1 - ((2, 3) : Node).1) ^ 2
      + (((7, 4) : Node).2 - ((2, 3) : Node).2) ^ 2).toNat = 26 := by norm_num; rfl
  unfold calculate_weight
  rw [h, sqrt26]

theorem leavesC4 : single_connection_nodes gC4 = [(2, 3), (7, 4)] := by decide

def g1C4 : MSTGraph := add_edge (add_edge gC4 (2,3) (7,4) 5) (7,4) (2,3) 5

theorem scanA : scan_candidates gC4 3 (2, 3) [(2, 3), (7, 4)] = (some (7, 4), 5) := by
  simp only [scan_candidates, List.foldl_cons, List.foldl_nil, cwC4]
  decide

theorem scanB : scan_candidates g1C4 3 (7, 4) [(2, 3), (7, 4)] = (some (2, 3), 5) := by
  simp only [scan_candidates, List.foldl_cons, List.foldl_nil, cwC4r]
  decide

/-- Counterexample for C4.  On the two-node MST with leaves `(2, 3)` and
`(7, 4)` (joined by one edge of floored weight 5), `add_connections 3`
connects the two leaves again — twice, once initiated from each leaf —
and records weight `int(math.sqrt(26)) = 5` on both endpoints, whereas
the exact non-floored Euclidean distance between the connected leaves is
`√26 ≠ 5`.  So the added-edge weight is floored exactly like MST edge
weights, contradicting the claim. -/
theorem add_connections_weight_counterexample :
    (add_connections gC4 3).adj (2, 3)
        = [((7, 4), 5), ((7, 4), 5), ((7, 4), 5)] ∧
      (5 : ℝ) ≠ Real.sqrt (((2 : ℝ) - 7) ^ 2 + ((3 : ℝ) - 4) ^ 2) := by
  constructor
  · show ((single_connection_nodes gC4).foldl _ gC4).adj (2, 3) = _
    rw [leavesC4]
    simp only [List.foldl_cons, List.foldl_nil]
    rw [scanA]
    dsimp only
    rw [show add_edge (add_edge gC4 (2, 3) (7, 4) 5) (7, 4) (2, 3) 5 = g1C4 from rfl]
    rw [scanB]
    dsimp only
    decide
  · have h : (5 : ℝ) < Real.sqrt (((2 : ℝ) - 7) ^ 2 + ((3 : ℝ) - 4) ^ 2) := by
      rw [show ((2 : ℝ) - 7) ^ 2 + ((3 : ℝ) - 4) ^ 2 = 26 by norm_num]
      exact (Real.lt_sqrt (by norm_num)).mpr (by norm_num)
    exact ne_of_lt h

def lastOther (leaves : List Node) (node : Node) : Option Node :=
  (leaves.filter fun x => x ≠ node).getLast?

theorem scan_candidates_spec (g : MSTGraph) (md : ℕ) (node : Node) (L : List Node) :
    (∀ x, (scan_candidates g md node L).1 = some x →
      x ∈ L ∧ x ≠ node ∧ md < calculate_weight node x ∧
        crosses_existing_edges g node x = false) ∧
    (∀ y, lastOther L node = some y →
      (scan_candidates g md node L).2 = calculate_weight node y) ∧
    (lastOther L node = none → scan_candidates g md node L = (none, 0)) := by
  induction L using List.reverseRecOn with
  | nil =>
    refine ⟨fun x hx => by simp [scan_candidates] at hx, fun y hy => ?_, fun _ => rfl⟩
    simp [lastOther] at hy
  | append_singleton L y ih =>
    obtain ⟨ih1, ih2, ih3⟩ := ih
    have hfold : scan_candidates g md node (L ++ [y])
        = (fun acc other =>
            if node ≠ other then
              let distance := calculate_weight node other
              if md < distance ∧ crosses_existing_edges g node other = false then
                (some other, distance)
              else (acc.1, distance)
            else acc) (scan_candidates g md node L) y := by
      unfold scan_candidates
      rw [List.foldl_append]
      rfl
    by_cases hy : node ≠ y
    · have hlast : lastOther (L ++ [y]) node = some y := by
        unfold lastOther
        rw [List.filter_append, show List.filter (fun x => decide (x ≠ node)) [y] = [y] by
          simp only [List.filter]
          rw [show decide (y ≠ node) = true from decide_eq_true (fun h => hy h.symm)]]
        exact List.getLast?_concat _
      refine ⟨?_, ?_, ?_⟩
      · intro x hx
        rw [hfold] at hx
        dsimp only at hx
        rw [if_pos hy] at hx
        by_cases hcond : md < calculate_weight node y ∧
            crosses_existing_edges g node y = false
        · rw [if_pos hcond] at hx
          obtain rfl : y = x := by simpa using hx
          exact ⟨List.mem_append_right L (List.mem_singleton_self y),
            fun h => hy h.symm, hcond.1, hcond.2⟩
        · rw [if_neg hcond] at hx
          dsimp only at hx
          obtain ⟨h1, h2, h3, h4⟩ := ih1 x hx
          exact ⟨List.mem_append_left _ h1, h2, h3, h4⟩
      · intro z hz
        rw [hlast] at hz
        obtain rfl : y = z := by simpa using hz
        rw [hfold]
        dsimp only
        rw [if_pos hy]
        by_cases hcond : md < calculate_weight node y ∧
            crosses_existing_edges g node y = false
        · rw [if_pos hcond]
        · rw [if_neg hcond]
      · intro hz
        rw [hlast] at hz
        cases hz
    · push_neg at hy
      subst hy
      have hfilt : List.filter (fun x => decide (x ≠ node)) [node] = [] := by simp
      have hlast : lastOther (L ++ [node]) node = lastOther L node := by
        unfold lastOther
        rw [List.filter_append, hfilt, List.append_nil]
      have hsc : scan_candidates g md node (L ++ [node])
          = scan_candidates g md node L := by
        rw [hfold]
        dsimp only
        rw [if_neg (by simp)]
      refine ⟨?_, ?_, ?_⟩
      · intro x hx
        rw [hsc] at hx
        obtain ⟨h1, h2, h3, h4⟩ := ih1 x hx
        exact ⟨List.mem_append_left _ h1, h2, h3, h4⟩
      · intro z hz
        rw [hlast] at hz
        rw [hsc]
        exact ih2 z hz
      · intro hz
        rw [hlast] at hz
        rw [hsc]
        exact ih3 hz

/-- Adding one undirected extra edge: the symmetric pair of appends the
source performs for a found connection. -/
def apply_pairs (g : MSTGraph) (pairs : List (Node × Node × ℕ)) : MSTGraph :=
  pairs.foldl (fun g2 e => add_edge (add_edge g2 e.1 e.2.1 e.2.2) e.2.1 e.1 e.2.2) g

theorem add_connections_go (leaves : List Node) (md : ℕ) :
    ∀ (L : List Node) (g2 : MSTGraph),
      ∃ pairs : List (Node × Node × ℕ),
        (pairs.map Prod.fst).Sublist L ∧
        (∀ e ∈ pairs, e.1 ∈ L ∧ e.2.1 ∈ leaves ∧ e.1 ≠ e.2.1 ∧
          md < calculate_weight e.1 e.2.1 ∧
          ∃ y, lastOther leaves e.1 = some y ∧ e.2.2 = calculate_weight e.1 y) ∧
        L.foldl (fun gg node =>
          let r := scan_candidates gg md node leaves
          match r.1 with
          | some nearest => add_edge (add_edge gg node nearest r.2) nearest node r.2
          | none => gg) g2 = apply_pairs g2 pairs := by
  intro L
  induction L with
  | nil => exact fun g2 => ⟨[], List.Sublist.refl _, fun e he => absurd he (List.not_mem_nil e), rfl⟩
  | cons node L ih =>
    intro g2
    rw [List.foldl_cons]
    rcases hscan : (scan_candidates g2 md node leaves).1 with _ | nearest
    · obtain ⟨pairs, hsub, hmem, heq⟩ := ih _
      refine ⟨pairs, hsub.cons node, fun e he => ?_, ?_⟩
      · obtain ⟨h1, hrest⟩ := hmem e he
        exact ⟨List.mem_cons_of_mem node h1, hrest⟩
      · rw [← heq]
        dsimp only
        rw [hscan]
    · obtain ⟨hn1, hn2, hn3, _⟩ := (scan_candidates_spec g2 md node leaves).1 nearest hscan
      have hlast : ∃ y, lastOther leaves node = some y ∧
          (scan_candidates g2 md node leaves).2 = calculate_weight node y := by
        rcases hl : lastOther leaves node with _ | y
        · have := (scan_candidates_spec g2 md node leaves).2.2 hl
          rw [this] at hscan
          cases hscan
        · exact ⟨y, rfl, (scan_candidates_spec g2 md node leaves).2.1 y hl⟩
      obtain ⟨pairs, hsub, hmem, heq⟩ :=
        ih (add_edge (add_edge g2 node nearest (scan_candidates g2 md node leaves).2)
          nearest node (scan_candidates g2 md node leaves).2)
      refine ⟨(node, nearest, (scan_candidates g2 md node leaves).2) :: pairs,
        ?_, ?_, ?_⟩
      · exact (hsub.cons_cons node : _)
      · intro e he
        rcases List.mem_cons.mp he with rfl | he
        · exact ⟨List.mem_cons_self _ _, hn1,
            fun h => hn2 h.symm, by
              obtain ⟨y, hy, hw⟩ := hlast
              exact hn3, hlast⟩
        · obtain ⟨h1, hrest⟩ := hmem e he
          exact ⟨List.mem_cons_of_mem node h1, hrest⟩
      · dsimp only
        rw [hscan]
        dsimp only
        rw [heq]
        rfl

/-- Amended C4: `add_connections` adds at most one extra edge pair per
originally-single-connection node (each pair is initiated by a distinct
leaf, in leaf order); every added edge is recorded symmetrically on both
endpoints with the same weight; the connected partner is a different leaf
whose floored distance from the initiator exceeds `min_distance`; but the
recorded weight is the **floored** (`int(math.sqrt(...))`) distance from
the initiator to the **last** distinct leaf scanned in the inner loop
(the Python local `distance` leaks out of the loop), which is the
distance to the connected partner only when that partner happens to be
the last distinct leaf. -/
theorem add_connections_amended (g : MSTGraph) (md : ℕ) :
    ∃ pairs : List (Node × Node × ℕ),
      (pairs.map Prod.fst).Sublist (single_connection_nodes g) ∧
      (∀ e ∈ pairs, e.1 ∈ single_connection_nodes g ∧
        e.2.1 ∈ single_connection_nodes g ∧ e.1 ≠ e.2.1 ∧
        md < calculate_weight e.1 e.2.1 ∧
        ∃ y, lastOther (single_connection_nodes g) e.1 = some y ∧
          e.2.2 = calculate_weight e.1 y) ∧
      add_connections g md = apply_pairs g pairs := by
  obtain ⟨pairs, hsub, hmem, heq⟩ :=
    add_connections_go (single_connection_nodes g) md (single_connection_nodes g) g
  exact ⟨pairs, hsub, hmem, heq⟩



/-! ### Union-find and Kruskal (src/infectious_disease_simulation/mst.py)

`MST.__find` is recursive with path compression; it is embedded with an
explicit fuel (the caller passes `nodes.length + 1`, which is proved
sufficient from the union-count invariant).  `MST.__union` re-runs the
two finds, then attaches by rank. -/

/-- Union-find state: the `__parent` and `__rank` dictionaries as total
functions (unregistered nodes are their own parents with rank 0, matching
`parent[node] = node; rank[node] = 0` initialisation for every key that
is ever touched). -/
structure UF where
  parent : Node → Node
  rank : Node → ℕ

/-- Fuelled embedding of `MST.__find`: path-compressing find.  Returns
the (compressed) parent map and the root. -/
def find_fuel : ℕ → (Node → Node) → Node → ((Node → Node) × Node)
  | 0, par, v => (par, v)
  | fuel + 1, par, v =>
    if par v = v then (par, v)
    else
      let r := find_fuel fuel par (par v)
      (Function.update r.1 v r.2, r.2)

/-- Embedding of `MST.__union`: two path-compressing finds, then attach
by rank (equal ranks attach the second root under the first and bump the
first root's rank). -/
def union (fuel : ℕ) (uf : UF) (node1 node2 : Node) : UF :=
  let f1 := find_fuel fuel uf.parent node1
  let f2 := find_fuel fuel f1.1 node2
  let root1 := f1.2
  let root2 := f2.2
  if uf.rank root1 > uf.rank root2 then
    { parent := Function.update f2.1 root2 root1, rank := uf.rank }
  else if uf.rank root1 < uf.rank root2 then
    { parent := Function.update f2.1 root1 root2, rank := uf.rank }
  else
    { parent := Function.update f2.1 root2 root1,
      rank := Function.update uf.rank root1 (uf.rank root1 + 1) }

/-- Iterated parent pointer. -/
def iterPar (par : Node → Node) : ℕ → Node → Node
  | 0, v => v
  | k + 1, v => iterPar par k (par v)

/-- A node is a union-find root. -/
def isRoot (par : Node → Node) (v : Node) : Prop := par v = v

/-- The chain from `v` reaches the root `r`. -/
def reachRoot (par : Node → Node) (v r : Node) : Prop :=
  ∃ j, iterPar par j v = r ∧ isRoot par r

/-- `u` and `v` lie in the same union-find set. -/
def SameSet (par : Node → Node) (u v : Node) : Prop :=
  ∃ r, reachRoot par u r ∧ reachRoot par v r

theorem iterPar_root (par : Node → Node) {r : Node} (h : isRoot par r) :
    ∀ k, iterPar par k r = r := by
  intro k
  induction k with
  | zero => rfl
  | succ k ih =>
    show iterPar par k (par r) = r
    rw [h]
    exact ih

theorem iterPar_add (par : Node → Node) (j k : ℕ) (v : Node) :
    iterPar par (j + k) v = iterPar par k (iterPar par j v) := by
  induction j generalizing v with
  | zero => rw [Nat.zero_add]; rfl
  | succ j ih =>
    rw [show j + 1 + k = (j + k) + 1 from by omega]
    show iterPar par (j + k) (par v) = iterPar par k (iterPar par j (par v))
    exact ih (par v)

/-- The root a chain reaches is unique. -/
theorem reachRoot_unique {par : Node → Node} {v r r' : Node}
    (h1 : reachRoot par v r) (h2 : reachRoot par v r') : r = r' := by
  obtain ⟨j, hj, hr⟩ := h1
  obtain ⟨j', hj', hr'⟩ := h2
  rcases le_total j j' with h | h
  · obtain ⟨k, rfl⟩ := Nat.exists_eq_add_of_le h
    rw [iterPar_add, hj, iterPar_root par hr] at hj'
    exact hj'
  · obtain ⟨k, rfl⟩ := Nat.exists_eq_add_of_le h
    rw [iterPar_add, hj', iterPar_root par hr'] at hj
    exact hj.symm

theorem reachRoot_of_parent {par : Node → Node} {v r : Node}
    (hv : ¬ isRoot par v) (h : reachRoot par (par v) r) : reachRoot par v r := by
  obtain ⟨j, hj, hr⟩ := h
  exact ⟨j + 1, by
    rw [show j + 1 = 1 + j by omega, iterPar_add]
    exact hj, hr⟩

/-- Specification of `find_fuel`: given any chain witness of length at
most the fuel, the find returns the root, and the returned parent map
differs from the input only by short-cutting some nodes (whose root is
`r`) directly to `r`. -/
theorem find_fuel_spec :
    ∀ (fuel : ℕ) (par : Node → Node) (v r : Node) (j : ℕ),
      j ≤ fuel → iterPar par j v = r → isRoot par r →
      (find_fuel fuel par v).2 = r ∧
      (∀ x, (find_fuel fuel par v).1 x = par x ∨
        ((find_fuel fuel par v).1 x = r ∧ reachRoot par x r)) := by
  intro fuel
  induction fuel with
  | zero =>
    intro par v r j hj hiter hroot
    obtain rfl : j = 0 := Nat.le_zero.mp hj
    have hvr : v = r := hiter
    exact ⟨hvr, fun x => Or.inl rfl⟩
  | succ fuel ih =>
    intro par v r j hj hiter hroot
    by_cases hv : par v = v
    · have hall : ∀ k, iterPar par k v = v := iterPar_root par hv
      rw [hall j] at hiter
      subst hiter
      have hfind : find_fuel (fuel + 1) par v = (par, v) := by
        simp only [find_fuel, if_pos hv]
      rw [hfind]
      exact ⟨rfl, fun x => Or.inl rfl⟩
    · have hj1 : 1 ≤ j := by
        rcases Nat.eq_zero_or_pos j with rfl | h
        · have hvr : v = r := hiter
          subst hvr
          exact absurd hroot hv
        · exact h
      obtain ⟨j', rfl⟩ : ∃ j', j = 1 + j' := ⟨j - 1, by omega⟩
      rw [iterPar_add] at hiter
      have hrec := ih par (par v) r j' (by omega) hiter hroot
      simp only [find_fuel, if_neg hv]
      refine ⟨hrec.1, fun x => ?_⟩
      by_cases hx : x = v
      · subst hx
        right
        rw [Function.update_same, hrec.1]
        exact ⟨rfl, reachRoot_of_parent hv ⟨j', hiter, hroot⟩⟩
      · rw [Function.update_noteq hx]
        exact hrec.2 x

/-- A parent map obtained from `par` by short-cutting some nodes with
root `r0` directly to `r0` (what the two finds of one Kruskal step do). -/
def Compresses (par par' : Node → Node) (r0 : Node) : Prop :=
  ∀ x, par' x = par x ∨ (par' x = r0 ∧ reachRoot par x r0)

theorem compresses_isRoot {par par' : Node → Node} {r0 : Node}
    (h : Compresses par par' r0) (hr0 : isRoot par r0) :
    ∀ s, isRoot par' s ↔ isRoot par s := by
  intro s
  constructor
  · intro hs
    rcases h s with hp | ⟨hp, hreach⟩
    · show par s = s
      rw [← hp]
      exact hs
    · have : s = r0 := by
        have := hs
        unfold isRoot at this
        rw [hp] at this
        exact this.symm
      rw [this]
      exact hr0
  · intro hs
    rcases h s with hp | ⟨hp, hreach⟩
    · show par' s = s
      rw [hp]
      exact hs
    · have hs0 : s = r0 := by
        obtain ⟨j, hj, _⟩ := hreach
        rw [iterPar_root par hs j] at hj
        exact hj
      show par' s = s
      rw [hp, hs0]

theorem compresses_iter_le {par par' : Node → Node} {r0 : Node}
    (h : Compresses par par' r0) (hr0 : isRoot par r0) :
    ∀ (j : ℕ) (x s : Node), iterPar par j x = s → isRoot par s →
      ∃ j' ≤ j, iterPar par' j' x = s ∧ isRoot par' s := by
  intro j
  induction j with
  | zero =>
    intro x s hx hs
    exact ⟨0, le_refl _, hx, (compresses_isRoot h hr0 s).mpr hs⟩
  | succ j ih =>
    intro x s hx hs
    by_cases hxr : isRoot par x
    · rw [iterPar_root par hxr] at hx
      subst hx
      exact ⟨0, Nat.zero_le _, rfl, (compresses_isRoot h hr0 x).mpr hxr⟩
    · rcases h x with hp | ⟨hp, hreach⟩
      · have hx' : iterPar par j (par x) = s := hx
        obtain ⟨j', hj', hiter, hroot⟩ := ih (par x) s hx' hs
        refine ⟨j' + 1, by omega, ?_, hroot⟩
        show iterPar par' j' (par' x) = s
        rw [hp]
        exact hiter
      · have hxs : reachRoot par x s := ⟨j + 1, hx, hs⟩
        have : s = r0 := reachRoot_unique hxs hreach
        subst this
        refine ⟨1, by omega, ?_, (compresses_isRoot h hr0 s).mpr hs⟩
        show par' x = s
        exact hp

theorem compresses_reachRoot {par par' : Node → Node} {r0 : Node}
    (h : Compresses par par' r0) (hr0 : isRoot par r0)
    (htot : ∀ v, ∃ r, reachRoot par v r) :
    ∀ x s, reachRoot par' x s ↔ reachRoot par x s := by
  intro x s
  constructor
  · intro hs
    obtain ⟨s0, hs0⟩ := htot x
    obtain ⟨j, hj, hroot⟩ := hs0
    obtain ⟨j', _, hiter', hroot'⟩ := compresses_iter_le h hr0 j x s0 hj hroot
    have : s = s0 := reachRoot_unique hs ⟨j', hiter', hroot'⟩
    subst this
    exact ⟨j, hj, hroot⟩
  · intro hs
    obtain ⟨j, hj, hroot⟩ := hs
    obtain ⟨j', _, hiter', hroot'⟩ := compresses_iter_le h hr0 j x s hj hroot
    exact ⟨j', hiter', hroot'⟩

theorem compresses_sameSet {par par' : Node → Node} {r0 : Node}
    (h : Compresses par par' r0) (hr0 : isRoot par r0)
    (htot : ∀ v, ∃ r, reachRoot par v r) :
    ∀ u v, SameSet par' u v ↔ SameSet par u v := by
  intro u v
  unfold SameSet
  constructor
  · rintro ⟨r, h1, h2⟩
    exact ⟨r, (compresses_reachRoot h hr0 htot u r).mp h1,
      (compresses_reachRoot h hr0 htot v r).mp h2⟩
  · rintro ⟨r, h1, h2⟩
    exact ⟨r, (compresses_reachRoot h hr0 htot u r).mpr h1,
      (compresses_reachRoot h hr0 htot v r).mpr h2⟩

/-! Attaching one root below another (the actual merge of `__union`). -/

theorem attach_isRoot {par : Node → Node} {r1 r2 : Node}
    (h1 : isRoot par r1) (h2 : isRoot par r2) (hne : r1 ≠ r2) :
    ∀ s, isRoot (Function.update par r2 r1) s ↔ (isRoot par s ∧ s ≠ r2) := by
  intro s
  by_cases hs : s = r2
  · subst hs
    unfold isRoot
    rw [Function.update_same]
    constructor
    · intro hc; exact absurd hc hne
    · intro hc; exact absurd rfl hc.2
  · unfold isRoot
    rw [Function.update_noteq hs]
    exact ⟨fun h => ⟨h, hs⟩, fun h => h.1⟩

theorem attach_reach_ne {par : Node → Node} {r1 r2 : Node}
    (h1 : isRoot par r1) (h2 : isRoot par r2) (hne : r1 ≠ r2) :
    ∀ (j : ℕ) (x s : Node), iterPar par j x = s → isRoot par s → s ≠ r2 →
      ∃ j' ≤ j, iterPar (Function.update par r2 r1) j' x = s ∧
        isRoot (Function.update par r2 r1) s := by
  intro j
  induction j with
  | zero =>
    intro x s hx hs hsne
    subst hx
    exact ⟨0, le_refl _, rfl, ((attach_isRoot h1 h2 hne _).mpr ⟨hs, hsne⟩)⟩
  | succ j ih =>
    intro x s hx hs hsne
    by_cases hxr : isRoot par x
    · rw [iterPar_root par hxr] at hx
      subst hx
      exact ⟨0, Nat.zero_le _, rfl, ((attach_isRoot h1 h2 hne _).mpr ⟨hxr, hsne⟩)⟩
    · have hxne : x ≠ r2 := by
        intro hc
        subst hc
        exact hxr h2
      obtain ⟨j', hj', hiter, hroot⟩ := ih (par x) s hx hs hsne
      refine ⟨j' + 1, by omega, ?_, hroot⟩
      show iterPar (Function.update par r2 r1) j' (Function.update par r2 r1 x) = s
      rw [Function.update_noteq hxne]
      exact hiter

theorem attach_reach_r2 {par : Node → Node} {r1 r2 : Node}
    (h1 : isRoot par r1) (h2 : isRoot par r2) (hne : r1 ≠ r2) :
    ∀ (j : ℕ) (x : Node), iterPar par j x = r2 →
      ∃ j' ≤ j + 1, iterPar (Function.update par r2 r1) j' x = r1 ∧
        isRoot (Function.update par r2 r1) r1 := by
  have hr1' : isRoot (Function.update par r2 r1) r1 :=
    (attach_isRoot h1 h2 hne r1).mpr ⟨h1, hne⟩
  intro j
  induction j with
  | zero =>
    intro x hx
    have hx' : x = r2 := hx
    subst hx'
    refine ⟨1, le_refl _, ?_, hr1'⟩
    show Function.update par x r1 x = r1
    rw [Function.update_same]
  | succ j ih =>
    intro x hx
    by_cases hxe : x = r2
    · subst hxe
      refine ⟨1, by omega, ?_, hr1'⟩
      show Function.update par x r1 x = r1
      rw [Function.update_same]
    · obtain ⟨j', hj', hiter, _⟩ := ih (par x) hx
      refine ⟨j' + 1, by omega, ?_, hr1'⟩
      show iterPar (Function.update par r2 r1) j' (Function.update par r2 r1 x) = r1
      rw [Function.update_noteq hxe]
      exact hiter

/-- Where every chain ends after attaching `r2` beneath `r1`:
the old root if it was not `r2`, and `r1` otherwise. -/
theorem attach_reachRoot_iff {par : Node → Node} {r1 r2 : Node}
    (h1 : isRoot par r1) (h2 : isRoot par r2) (hne : r1 ≠ r2)
    (htot : ∀ v, ∃ r, reachRoot par v r) :
    ∀ x s, reachRoot (Function.update par r2 r1) x s ↔
      ((reachRoot par x s ∧ s ≠ r2) ∨ (reachRoot par x r2 ∧ s = r1)) := by
  intro x s
  constructor
  · intro hs
    obtain ⟨s0, hs0⟩ := htot x
    by_cases hs0r2 : s0 = r2
    · subst hs0r2
      obtain ⟨j, hj, hr⟩ := hs0
      obtain ⟨j', _, hiter', hroot'⟩ := attach_reach_r2 h1 h2 hne j x hj
      have heq : s = r1 := reachRoot_unique hs ⟨j', hiter', hroot'⟩
      exact Or.inr ⟨⟨j, hj, hr⟩, heq⟩
    · obtain ⟨j, hj, hroot⟩ := hs0
      obtain ⟨j', _, hiter', hroot'⟩ := attach_reach_ne h1 h2 hne j x s0 hj hroot hs0r2
      have heq : s = s0 := reachRoot_unique hs ⟨j', hiter', hroot'⟩
      subst heq
      exact Or.inl ⟨⟨j, hj, hroot⟩, hs0r2⟩
  · rintro (⟨⟨j, hj, hroot⟩, hsne⟩ | ⟨⟨j, hj, _⟩, rfl⟩)
    · obtain ⟨j', _, hiter', hroot'⟩ := attach_reach_ne h1 h2 hne j x s hj hroot hsne
      exact ⟨j', hiter', hroot'⟩
    · obtain ⟨j', _, hiter', hroot'⟩ := attach_reach_r2 h1 h2 hne j x hj
      exact ⟨j', hiter', hroot'⟩

/-- Every chain reaches a root within `b` steps. -/
def RootedBound (par : Node → Node) (b : ℕ) : Prop :=
  ∀ v, ∃ j ≤ b, isRoot par (iterPar par j v)

theorem RootedBound.total {par : Node → Node} {b : ℕ} (h : RootedBound par b) :
    ∀ v, ∃ r, reachRoot par v r := by
  intro v
  obtain ⟨j, _, hroot⟩ := h v
  exact ⟨iterPar par j v, j, rfl, hroot⟩

theorem compresses_trans {par p1 p2 : Node → Node} {r : Node}
    (h1 : Compresses par p1 r) (h2 : Compresses p1 p2 r)
    (hr : isRoot par r) (htot : ∀ v, ∃ s, reachRoot par v s) :
    Compresses par p2 r := by
  intro x
  rcases h2 x with hp | ⟨hp, hreach⟩
  · rcases h1 x with hq | ⟨hq, hreach⟩
    · exact Or.inl (hp.trans hq)
    · exact Or.inr ⟨hp.trans hq, hreach⟩
  · exact Or.inr ⟨hp, (compresses_reachRoot h1 hr htot x r).mp hreach⟩

/-- The behaviour of one `__find` call under the rootedness invariant:
it returns the root of its argument, only short-cuts chains (so the
partition, the root set and the chain-length bound are all preserved). -/
theorem find_fuel_package {par : Node → Node} {b fuel : ℕ}
    (hb : RootedBound par b) (hfuel : b ≤ fuel) (v : Node) :
    reachRoot par v (find_fuel fuel par v).2 ∧
    Compresses par (find_fuel fuel par v).1 (find_fuel fuel par v).2 ∧
    RootedBound (find_fuel fuel par v).1 b := by
  obtain ⟨j, hj, hroot⟩ := hb v
  have hspec := find_fuel_spec fuel par v (iterPar par j v) j (hj.trans hfuel) rfl hroot
  have hreach : reachRoot par v (find_fuel fuel par v).2 := by
    rw [hspec.1]
    exact ⟨j, rfl, hroot⟩
  have hcomp : Compresses par (find_fuel fuel par v).1 (find_fuel fuel par v).2 := by
    intro x
    rcases hspec.2 x with hp | ⟨hp, hr⟩
    · exact Or.inl hp
    · exact Or.inr ⟨by rw [hspec.1]; exact hp, by rw [hspec.1]; exact hr⟩
  have hrootr : isRoot par (find_fuel fuel par v).2 := by
    rw [hspec.1]
    exact hroot
  refine ⟨hreach, hcomp, ?_⟩
  intro x
  obtain ⟨jx, hjx, hrootx⟩ := hb x
  obtain ⟨j', hj', hiter', hroot'⟩ :=
    compresses_iter_le hcomp hrootr jx x (iterPar par jx x) rfl hrootx
  exact ⟨j', hj'.trans hjx, by rw [hiter']; exact hroot'⟩

/-! ### Claim C8: union of two nodes already in the same set -/

/-- The freshly initialised union-find state (every node its own root,
rank 0), as `__kruskal` sets it up. -/
def ufInit : UF := { parent := fun v => v, rank := fun _ => 0 }

/-- Counterexample for C8.  With every node its own root, `union(x, x)`
finds the same root twice, falls into the equal-rank branch, and
increments the root's rank: the rank map changes, so the call is not a
no-op. -/
theorem union_same_set_rank_counterexample :
    SameSet ufInit.parent (0, 0) (0, 0) ∧
      ufInit.rank ((0 : ℤ), (0 : ℤ)) = 0 ∧
      (union 1 ufInit (0, 0) (0, 0)).rank ((0 : ℤ), (0 : ℤ)) = 1 := by
  refine ⟨⟨(0, 0), ⟨0, rfl, rfl⟩, ⟨0, rfl, rfl⟩⟩, rfl, ?_⟩
  show Function.update ufInit.rank (0, 0) (ufInit.rank (0, 0) + 1) ((0 : ℤ), (0 : ℤ)) = 1
  rw [Function.update_same]
  rfl

/-- Amended C8: when `a` and `b` already share a root `r`, `union(a, b)`
leaves the partition and the root set unchanged and changes the parent
map only by path compression (each changed entry now points directly at
`r`), but it increments the rank of the common root by 1 — it is not a
complete no-op. -/
theorem union_same_set_amended (fuel b : ℕ) (uf : UF) (a c : Node)
    (hb : RootedBound uf.parent b) (hfuel : b ≤ fuel)
    (hsame : SameSet uf.parent a c) :
    ∃ r, reachRoot uf.parent a r ∧ reachRoot uf.parent c r ∧
      (union fuel uf a c).rank = Function.update uf.rank r (uf.rank r + 1) ∧
      (∀ x, (union fuel uf a c).parent x = uf.parent x ∨
        ((union fuel uf a c).parent x = r ∧ reachRoot uf.parent x r)) ∧
      (∀ u v, SameSet (union fuel uf a c).parent u v ↔ SameSet uf.parent u v) ∧
      (∀ s, isRoot (union fuel uf a c).parent s ↔ isRoot uf.parent s) := by
  have htot := hb.total
  obtain ⟨ha, hcomp1, hb1⟩ := find_fuel_package hb hfuel a
  obtain ⟨hc1, hcomp2, hb2⟩ := find_fuel_package hb1 hfuel c
  rcases hfind1 : find_fuel fuel uf.parent a with ⟨p1, r1⟩
  rw [hfind1] at ha hcomp1 hb1 hc1 hcomp2 hb2
  dsimp only at ha hcomp1 hb1 hc1 hcomp2 hb2
  rcases hfind2 : find_fuel fuel p1 c with ⟨p2, r2⟩
  rw [hfind2] at hc1 hcomp2 hb2
  dsimp only at hc1 hcomp2 hb2
  have hroot1 : isRoot uf.parent r1 := by
    obtain ⟨j, _, h⟩ := ha
    exact h
  have hc : reachRoot uf.parent c r2 :=
    (compresses_reachRoot hcomp1 hroot1 htot c r2).mp hc1
  have hroot2 : isRoot uf.parent r2 := by
    obtain ⟨j, _, h⟩ := hc
    exact h
  obtain ⟨r0, har0, hcr0⟩ := hsame
  have hra : r1 = r0 := reachRoot_unique ha har0
  have hrc : r2 = r0 := reachRoot_unique hc hcr0
  have heq : r1 = r2 := by rw [hra, hrc]
  subst heq
  have hcomp12 : Compresses uf.parent p2 r1 :=
    compresses_trans hcomp1 hcomp2 hroot1 htot
  have hp2root : p2 r1 = r1 :=
    (compresses_isRoot hcomp12 hroot1 r1).mpr hroot1
  have hunion : union fuel uf a c
      = { parent := p2, rank := Function.update uf.rank r1 (uf.rank r1 + 1) } := by
    unfold union
    rw [hfind1]
    dsimp only
    rw [hfind2]
    dsimp only
    rw [if_neg (lt_irrefl _), if_neg (lt_irrefl _)]
    have : Function.update p2 r1 r1 = p2 := by
      nth_rewrite 2 [← hp2root]
      rw [Function.update_eq_self]
    rw [this]
  rw [hunion]
  exact ⟨r1, ha, hc, rfl, hcomp12,
    compresses_sameSet hcomp12 hroot1 htot,
    compresses_isRoot hcomp12 hroot1⟩


/-- Witness for `union_same_set_amended` at the freshly initialised state
and `a = b = (0, 0)`. -/
theorem union_same_set_amended_witness :
    (RootedBound ufInit.parent 0 ∧ (0 : ℕ) ≤ 1 ∧
        SameSet ufInit.parent (0, 0) (0, 0)) ∧
      ∃ r, reachRoot ufInit.parent (0, 0) r ∧ reachRoot ufInit.parent (0, 0) r ∧
        (union 1 ufInit (0, 0) (0, 0)).rank
          = Function.update ufInit.rank r (ufInit.rank r + 1) ∧
        (∀ x, (union 1 ufInit (0, 0) (0, 0)).parent x = ufInit.parent x ∨
          ((union 1 ufInit (0, 0) (0, 0)).parent x = r ∧
            reachRoot ufInit.parent x r)) ∧
        (∀ u v, SameSet (union 1 ufInit (0, 0) (0, 0)).parent u v ↔
          SameSet ufInit.parent u v) ∧
        (∀ s, isRoot (union 1 ufInit (0, 0) (0, 0)).parent s ↔
          isRoot ufInit.parent s) := by
  have hb : RootedBound ufInit.parent 0 := fun v => ⟨0, le_refl _, rfl⟩
  have hsame : SameSet ufInit.parent (0, 0) (0, 0) :=
    ⟨(0, 0), ⟨0, rfl, rfl⟩, ⟨0, rfl, rfl⟩⟩
  exact ⟨⟨hb, by omega, hsame⟩,
    union_same_set_amended 1 0 ufInit (0, 0) (0, 0) hb (by omega) hsame⟩

/-! ### Kruskal (MST.__kruskal) -/

/-- The MST class's input graph `__graph`: a dictionary from nodes to
neighbour lists (unweighted; weights are recomputed per edge). -/
structure UGraph where
  nodes : List Node
  adj : Node → List Node

/-- Embedding of `MST.__create_edge_list`: one `(weight, node, neighbour)`
triple per adjacency entry, in dictionary iteration order. -/
def create_edge_list (G : UGraph) : List (ℕ × Node × Node) :=
  G.nodes.bind fun node => (G.adj node).map fun nb => (calculate_weight node nb, node, nb)

/-- Python tuple comparison on coordinate pairs (strict). -/
def nodeLtB (a b : Node) : Bool :=
  decide (a.1 < b.1) || (decide (a.1 = b.1) && decide (a.2 < b.2))

/-- Python `list.sort()` comparison on `(weight, node1, node2)` tuples. -/
def edge_le (e f : ℕ × Node × Node) : Bool :=
  decide (e.1 < f.1) || (decide (e.1 = f.1) &&
    (nodeLtB e.2.1 f.2.1 || (decide (e.2.1 = f.2.1) &&
      (nodeLtB e.2.2 f.2.2 || decide (e.2.2 = f.2.2)))))

/-- State threaded through `__kruskal`'s edge loop. -/
structure KState where
  uf : UF
  mst : Node → List (Node × ℕ)

/-- One iteration of `__kruskal`'s edge loop: the guard runs two
path-compressing finds (mutating the parent map either way); if the roots
differ, `__union` runs and the edge is recorded on both endpoints. -/
def kruskal_step (fuel : ℕ) (st : KState) (e : ℕ × Node × Node) : KState :=
  let f1 := find_fuel fuel st.uf.parent e.2.1
  let f2 := find_fuel fuel f1.1 e.2.2
  if f1.2 ≠ f2.2 then
    let uf2 := union fuel { parent := f2.1, rank := st.uf.rank } e.2.1 e.2.2
    let m1 := Function.update st.mst e.2.1 (st.mst e.2.1 ++ [(e.2.2, e.1)])
    let m2 := Function.update m1 e.2.2 (m1 e.2.2 ++ [(e.2.1, e.1)])
    { uf := uf2, mst := m2 }
  else
    { uf := { parent := f2.1, rank := st.uf.rank }, mst := st.mst }

/-- Embedding of `MST.__kruskal`: initialise every node as its own root,
sort the edge list (Python tuple order), and fold the edge loop.  The
find fuel `nodes.length + 1` is proved sufficient below (the chain-length
bound never exceeds the number of accepted edges `< nodes.length`). -/
def kruskal (G : UGraph) : Node → List (Node × ℕ) :=
  let fuel := G.nodes.length + 1
  let edges := (create_edge_list G).mergeSort edge_le
  (edges.foldl (kruskal_step fuel)
    { uf := { parent := fun v => v, rank := fun _ => 0 }, mst := fun _ => [] }).mst

/-! Specification-side graph notions for C2. -/

/-- Undirected adjacency of the input dictionary. -/
def adjacentG (G : UGraph) (u v : Node) : Prop :=
  (u ∈ G.nodes ∧ v ∈ G.adj u) ∨ (v ∈ G.nodes ∧ u ∈ G.adj v)

/-- The input graph is connected. -/
def connectedG (G : UGraph) : Prop :=
  ∀ u ∈ G.nodes, ∀ v ∈ G.nodes, Relation.ReflTransGen (adjacentG G) u v

/-- Well-formed input dictionary: distinct keys, neighbours are keys. -/
def WFgraph (G : UGraph) : Prop :=
  G.nodes.Nodup ∧ ∀ u ∈ G.nodes, ∀ v ∈ G.adj u, v ∈ G.nodes

/-- Two nodes joined by an edge of the list `E`. -/
def edgeTouch (E : List (ℕ × Node × Node)) (u v : Node) : Prop :=
  ∃ e ∈ E, (e.2.1 = u ∧ e.2.2 = v) ∨ (e.2.1 = v ∧ e.2.2 = u)

/-- Connectivity via the edges of `E`. -/
def linked (E : List (ℕ × Node × Node)) : Node → Node → Prop :=
  Relation.ReflTransGen (edgeTouch E)

/-- A multigraph edge list is acyclic exactly when every edge is a
bridge: removing any single edge disconnects its endpoints (this also
rules out parallel edges and self-loops). -/
def AcyclicList (E : List (ℕ × Node × Node)) : Prop :=
  ∀ (i : ℕ) (h : i < E.length),
    ¬ linked (E.eraseIdx i) (E.get ⟨i, h⟩).2.1 (E.get ⟨i, h⟩).2.2

/-- Number of union-find roots among the graph nodes. -/
def rootsCount (G : UGraph) (par : Node → Node) : ℕ :=
  (G.nodes.filter fun v => decide (par v = v)).length

theorem edgeTouch_symm {E : List (ℕ × Node × Node)} {u v : Node}
    (h : edgeTouch E u v) : edgeTouch E v u := by
  obtain ⟨e, he, h⟩ := h
  exact ⟨e, he, h.symm⟩

theorem linked_symm {E : List (ℕ × Node × Node)} {u v : Node}
    (h : linked E u v) : linked E v u :=
  Relation.ReflTransGen.symmetric (fun _ _ => edgeTouch_symm) h

theorem linked_mono {E E' : List (ℕ × Node × Node)} (hsub : ∀ e ∈ E, e ∈ E')
    {u v : Node} (h : linked E u v) : linked E' u v :=
  Relation.ReflTransGen.mono
    (fun a b ⟨e, he, hab⟩ => ⟨e, hsub e he, hab⟩) h

theorem linked_nil {u v : Node} (h : linked [] u v) : u = v := by
  induction h with
  | refl => rfl
  | tail _ ht ih =>
    obtain ⟨e, he, _⟩ := ht
    exact absurd he (List.not_mem_nil e)

theorem linked_of_mem {E : List (ℕ × Node × Node)} {e : ℕ × Node × Node}
    (he : e ∈ E) : linked E e.2.1 e.2.2 :=
  Relation.ReflTransGen.single ⟨e, he, Or.inl ⟨rfl, rfl⟩⟩

/-- Decomposition of connectivity after appending one edge. -/
theorem linked_append_iff {E : List (ℕ × Node × Node)} {f : ℕ × Node × Node}
    {u v : Node} :
    linked (E ++ [f]) u v ↔
      linked E u v ∨ (linked E u f.2.1 ∧ linked E f.2.2 v) ∨
        (linked E u f.2.2 ∧ linked E f.2.1 v) := by
  constructor
  · intro h
    induction h with
    | refl => exact Or.inl Relation.ReflTransGen.refl
    | tail _ ht ih =>
      rename_i w x _
      obtain ⟨e, he, hab⟩ := ht
      rcases List.mem_append.mp he with heE | hef
      · have hstep : linked E w x := Relation.ReflTransGen.single ⟨e, heE, hab⟩
        rcases ih with h1 | ⟨h1, h2⟩ | ⟨h1, h2⟩
        · exact Or.inl (h1.trans hstep)
        · exact Or.inr (Or.inl ⟨h1, h2.trans hstep⟩)
        · exact Or.inr (Or.inr ⟨h1, h2.trans hstep⟩)
      · have hef : e = f := by simpa using hef
        subst hef
        rcases hab with ⟨h1, h2⟩ | ⟨h1, h2⟩
        · subst h1; subst h2
          rcases ih with h1 | ⟨h1, h2⟩ | ⟨h1, h2⟩
          · exact Or.inr (Or.inl ⟨h1, Relation.ReflTransGen.refl⟩)
          · exact Or.inr (Or.inl ⟨h1, Relation.ReflTransGen.refl⟩)
          · exact Or.inl h1
        · subst h1; subst h2
          rcases ih with h1 | ⟨h1, h2⟩ | ⟨h1, h2⟩
          · exact Or.inr (Or.inr ⟨h1, Relation.ReflTransGen.refl⟩)
          · exact Or.inl h1
          · exact Or.inr (Or.inr ⟨h1, Relation.ReflTransGen.refl⟩)
  · intro h
    have hmono : ∀ {a b : Node}, linked E a b → linked (E ++ [f]) a b :=
      fun h => linked_mono (fun e he => List.mem_append_left _ he) h
    have hf : linked (E ++ [f]) f.2.1 f.2.2 :=
      Relation.ReflTransGen.single
        ⟨f, List.mem_append_right _ (List.mem_singleton_self f), Or.inl ⟨rfl, rfl⟩⟩
    rcases h with h | ⟨h1, h2⟩ | ⟨h1, h2⟩
    · exact hmono h
    · exact ((hmono h1).trans hf).trans (hmono h2)
    · exact ((hmono h1).trans (linked_symm hf)).trans (hmono h2)

theorem sameSet_iff_roots {par : Node → Node} {a c ra rc : Node}
    (ha : reachRoot par a ra) (hc : reachRoot par c rc) :
    SameSet par a c ↔ ra = rc := by
  constructor
  · rintro ⟨r, h1, h2⟩
    rw [reachRoot_unique ha h1, reachRoot_unique hc h2]
  · intro h
    exact ⟨ra, ha, h ▸ hc⟩

theorem iterPar_mem {G : UGraph} {par : Node → Node}
    (hclosed : ∀ v ∈ G.nodes, par v ∈ G.nodes) :
    ∀ (j : ℕ) (v : Node), v ∈ G.nodes → iterPar par j v ∈ G.nodes := by
  intro j
  induction j with
  | zero => intro v hv; exact hv
  | succ j ih => intro v hv; exact ih (par v) (hclosed v hv)

theorem root_mem {G : UGraph} {par : Node → Node} {v r : Node}
    (hclosed : ∀ x ∈ G.nodes, par x ∈ G.nodes) (hv : v ∈ G.nodes)
    (h : reachRoot par v r) : r ∈ G.nodes := by
  obtain ⟨j, hj, _⟩ := h
  rw [← hj]
  exact iterPar_mem hclosed j v hv

theorem compresses_closed {G : UGraph} {par par' : Node → Node} {r0 : Node}
    (h : Compresses par par' r0) (hr0 : r0 ∈ G.nodes)
    (hclosed : ∀ v ∈ G.nodes, par v ∈ G.nodes) :
    ∀ v ∈ G.nodes, par' v ∈ G.nodes := by
  intro v hv
  rcases h v with hp | ⟨hp, _⟩
  · rw [hp]; exact hclosed v hv
  · rw [hp]; exact hr0

theorem compresses_outside {par par' : Node → Node} {r0 : Node} {G : UGraph}
    (h : Compresses par par' r0)
    (hout : ∀ v, v ∉ G.nodes → par v = v) :
    ∀ v, v ∉ G.nodes → par' v = v := by
  intro v hv
  rcases h v with hp | ⟨hp, hreach⟩
  · rw [hp]; exact hout v hv
  · have hroot : isRoot par v := hout v hv
    obtain ⟨j, hj, _⟩ := hreach
    rw [iterPar_root par hroot j] at hj
    rw [hp, ← hj]

theorem sum_map_add (l : List Node) (f g : Node → ℕ) :
    (l.map fun v => f v + g v).sum = (l.map f).sum + (l.map g).sum := by
  induction l with
  | nil => rfl
  | cons a t ih => simp [ih]; omega

theorem sum_map_indicator_zero (l : List Node) (a : Node) (ha : a ∉ l) :
    (l.map fun v => if v = a then 1 else 0).sum = 0 := by
  induction l with
  | nil => rfl
  | cons x t ih =>
    have hxa : x ≠ a := fun h => ha (h ▸ List.mem_cons_self x t)
    simp only [List.map_cons, List.sum_cons, if_neg hxa]
    rw [ih (fun h => ha (List.mem_cons_of_mem x h))]

theorem sum_map_indicator (l : List Node) (hnd : l.Nodup) (a : Node) (ha : a ∈ l) :
    (l.map fun v => if v = a then 1 else 0).sum = 1 := by
  induction l with
  | nil => exact absurd ha (List.not_mem_nil a)
  | cons x t ih =>
    by_cases hxa : x = a
    · subst hxa
      simp only [List.map_cons, List.sum_cons, if_pos rfl]
      rw [sum_map_indicator_zero t x (List.Nodup.not_mem hnd)]
      simp
    · simp only [List.map_cons, List.sum_cons, if_neg hxa]
      rw [ih (List.Nodup.of_cons hnd)
        (by rcases List.mem_cons.mp ha with h | h; exact absurd h.symm hxa; exact h)]

theorem filter_length_drop {l : List Node} (hnd : l.Nodup) {r : Node} (hr : r ∈ l)
    (P Q : Node → Bool) (hQ : ∀ x, Q x = (P x && decide (x ≠ r)))
    (hPr : P r = true) :
    (l.filter Q).length + 1 = (l.filter P).length := by
  induction l with
  | nil => exact absurd hr (List.not_mem_nil r)
  | cons a t ih =>
    by_cases har : a = r
    · subst har
      have hQa : Q a = false := by
        rw [hQ a]
        simp
      have hQt : t.filter Q = t.filter P := by
        refine List.filter_congr ?_
        intro x hx
        rw [hQ x]
        have hxa : x ≠ a := fun h => (List.Nodup.not_mem hnd) (h ▸ hx)
        simp [hxa]
      rw [List.filter_cons_of_neg (by rw [hQa]; exact Bool.false_ne_true),
        List.filter_cons_of_pos hPr, hQt]
      simp
    · have hrt : r ∈ t := by
        rcases List.mem_cons.mp hr with h | h
        · exact absurd h.symm har
        · exact h
      have hQa : Q a = P a := by
        rw [hQ a]
        simp [har]
      by_cases hPa : P a = true
      · rw [List.filter_cons_of_pos (by rw [hQa]; exact hPa),
          List.filter_cons_of_pos hPa]
        simp only [List.length_cons]
        have := ih (List.Nodup.of_cons hnd) hrt
        omega
      · rw [List.filter_cons_of_neg (by rw [hQa]; simpa using hPa),
          List.filter_cons_of_neg (by simpa using hPa)]
        exact ih (List.Nodup.of_cons hnd) hrt

theorem nodup_all_eq_length_le_one {l : List Node} (hnd : l.Nodup)
    (h : ∀ a ∈ l, ∀ b ∈ l, a = b) : l.length ≤ 1 := by
  match l with
  | [] => simp
  | [a] => simp
  | a :: b :: t =>
    exfalso
    have hab : a = b := h a (List.mem_cons_self _ _) b
      (List.mem_cons_of_mem a (List.mem_cons_self _ _))
    rw [List.nodup_cons] at hnd
    exact hnd.1 (hab ▸ List.mem_cons_self b t)

/-- The loop invariant of `__kruskal`: `E` is the list of accepted edges
so far. -/
structure KInv (G : UGraph) (st : KState) (E : List (ℕ × Node × Node)) : Prop where
  rooted : RootedBound st.uf.parent E.length
  closed : ∀ v ∈ G.nodes, st.uf.parent v ∈ G.nodes
  outside : ∀ v, v ∉ G.nodes → st.uf.parent v = v
  count : E.length + rootsCount G st.uf.parent = G.nodes.length
  partition : ∀ u v, SameSet st.uf.parent u v ↔ linked E u v
  mstAdj : ∀ u v w, (v, w) ∈ st.mst u ↔ ((w, u, v) ∈ E ∨ (w, v, u) ∈ E)
  mstCount : (G.nodes.map fun v => (st.mst v).length).sum = 2 * E.length
  acyclic : AcyclicList E
  endpoints : ∀ e ∈ E, e.2.1 ∈ G.nodes ∧ e.2.2 ∈ G.nodes ∧ e.2.1 ≠ e.2.2

theorem sameSet_id (u v : Node) : SameSet (fun v => v) u v ↔ u = v := by
  constructor
  · rintro ⟨r, ⟨j, hj, _⟩, ⟨j', hj', _⟩⟩
    have h1 : iterPar (fun v => v) j u = u :=
      iterPar_root _ (show isRoot (fun v => v) u from rfl) j
    have h2 : iterPar (fun v => v) j' v = v :=
      iterPar_root _ (show isRoot (fun v => v) v from rfl) j'
    rw [h1] at hj
    rw [h2] at hj'
    rw [hj, hj']
  · rintro rfl
    exact ⟨u, ⟨0, rfl, rfl⟩, ⟨0, rfl, rfl⟩⟩

theorem kruskal_init_inv (G : UGraph) (hnd : G.nodes.Nodup) :
    KInv G { uf := { parent := fun v => v, rank := fun _ => 0 }, mst := fun _ => [] }
      [] := by
  refine ⟨?_, ?_, ?_, ?_, ?_, ?_, ?_, ?_, ?_⟩
  · intro v; exact ⟨0, le_refl _, rfl⟩
  · intro v hv; exact hv
  · intro v _; rfl
  · show 0 + (G.nodes.filter fun v => decide (v = v)).length = G.nodes.length
    rw [List.filter_congr (fun x _ => by simp : ∀ x ∈ G.nodes,
      (decide (x = x)) = true)]
    simp
  · intro u v
    rw [sameSet_id]
    constructor
    · rintro rfl; exact Relation.ReflTransGen.refl
    · exact linked_nil
  · intro u v w
    simp
  · simp
  · intro i h; simp at h
  · intro e he; exact absurd he (List.not_mem_nil e)

/-- Combined effect of the two finds `find(node1); find(node2)` that both
the loop guard and `__union` perform: roots are returned, and the doubly
compressed parent map is equivalent to the original (same reachability,
same roots, same bound, same closure). -/
theorem guard_finds (G : UGraph) (par : Node → Node) (b fuel : ℕ)
    (hb : RootedBound par b) (hf : b ≤ fuel)
    (hclosed : ∀ v ∈ G.nodes, par v ∈ G.nodes)
    (hout : ∀ v, v ∉ G.nodes → par v = v)
    (a c : Node) (ha : a ∈ G.nodes) (hc : c ∈ G.nodes)
    (p1 p2 : Node → Node) (r1 r2 : Node)
    (h1 : find_fuel fuel par a = (p1, r1))
    (h2 : find_fuel fuel p1 c = (p2, r2)) :
    reachRoot par a r1 ∧ reachRoot par c r2 ∧
    (∀ x s, reachRoot p2 x s ↔ reachRoot par x s) ∧
    (∀ s, isRoot p2 s ↔ isRoot par s) ∧
    RootedBound p2 b ∧
    (∀ v ∈ G.nodes, p2 v ∈ G.nodes) ∧ (∀ v, v ∉ G.nodes → p2 v = v) := by
  have htot := hb.total
  obtain ⟨ha1, hcompA, hbA⟩ := find_fuel_package hb hf a
  rw [h1] at ha1 hcompA hbA
  dsimp only at ha1 hcompA hbA
  have hraRoot : isRoot par r1 := by
    obtain ⟨j, _, h⟩ := ha1
    exact h
  have hr1mem : r1 ∈ G.nodes := root_mem hclosed ha ha1
  have hclosed1 : ∀ v ∈ G.nodes, p1 v ∈ G.nodes :=
    compresses_closed hcompA hr1mem hclosed
  have hout1 : ∀ v, v ∉ G.nodes → p1 v = v := compresses_outside hcompA hout
  obtain ⟨hc1, hcompB, hbB⟩ := find_fuel_package hbA hf c
  rw [h2] at hc1 hcompB hbB
  dsimp only at hc1 hcompB hbB
  have hrcRoot1 : isRoot p1 r2 := by
    obtain ⟨j, _, h⟩ := hc1
    exact h
  have hc2 : reachRoot par c r2 :=
    (compresses_reachRoot hcompA hraRoot htot c r2).mp hc1
  have hr2mem : r2 ∈ G.nodes := root_mem hclosed1 hc hc1
  have hreach : ∀ x s, reachRoot p2 x s ↔ reachRoot par x s := by
    intro x s
    rw [compresses_reachRoot hcompB hrcRoot1 hbA.total,
      compresses_reachRoot hcompA hraRoot htot]
  have hroots : ∀ s, isRoot p2 s ↔ isRoot par s := fun s =>
    (compresses_isRoot hcompB hrcRoot1 s).trans (compresses_isRoot hcompA hraRoot s)
  exact ⟨ha1, hc2, hreach, hroots, hbB,
    compresses_closed hcompB hr2mem hclosed1,
    compresses_outside hcompB hout1⟩

theorem sameSet_reach_left {par : Node → Node} {a ra : Node}
    (ha : reachRoot par a ra) (u : Node) :
    SameSet par u a ↔ reachRoot par u ra := by
  constructor
  · rintro ⟨r, h1, h2⟩
    rw [reachRoot_unique h2 ha] at h1
    exact h1
  · intro h
    exact ⟨ra, h, ha⟩

/-- Effect of attaching root `rx` beneath root `ry` on the partition. -/
theorem attach_sameSet_iff {p4 : Node → Node} {rx ry : Node}
    (hrx : isRoot p4 rx) (hry : isRoot p4 ry) (hne : ry ≠ rx)
    (htot4 : ∀ v, ∃ r, reachRoot p4 v r) :
    ∀ u v, SameSet (Function.update p4 rx ry) u v ↔
      (SameSet p4 u v ∨ (reachRoot p4 u rx ∧ reachRoot p4 v ry) ∨
        (reachRoot p4 u ry ∧ reachRoot p4 v rx)) := by
  intro u v
  constructor
  · rintro ⟨r, h1, h2⟩
    rw [attach_reachRoot_iff hry hrx hne htot4] at h1 h2
    rcases h1 with ⟨h1, h1ne⟩ | ⟨h1, rfl⟩ <;>
      rcases h2 with ⟨h2, h2ne⟩ | ⟨h2, h2e⟩
    · exact Or.inl ⟨r, h1, h2⟩
    · subst h2e
      exact Or.inr (Or.inr ⟨h1, h2⟩)
    · exact Or.inr (Or.inl ⟨h1, h2⟩)
    · exact Or.inl ⟨rx, h1, h2⟩
  · intro h
    rcases h with ⟨r, h1, h2⟩ | ⟨h1, h2⟩ | ⟨h1, h2⟩
    · by_cases hr : r = rx
      · subst hr
        refine ⟨ry, ?_, ?_⟩ <;>
          rw [attach_reachRoot_iff hry hrx hne htot4]
        · exact Or.inr ⟨h1, rfl⟩
        · exact Or.inr ⟨h2, rfl⟩
      · refine ⟨r, ?_, ?_⟩ <;>
          rw [attach_reachRoot_iff hry hrx hne htot4]
        · exact Or.inl ⟨h1, hr⟩
        · exact Or.inl ⟨h2, hr⟩
    · refine ⟨ry, ?_, ?_⟩ <;> rw [attach_reachRoot_iff hry hrx hne htot4]
      · exact Or.inr ⟨h1, rfl⟩
      · exact Or.inl ⟨h2, hne⟩
    · refine ⟨ry, ?_, ?_⟩ <;> rw [attach_reachRoot_iff hry hrx hne htot4]
      · exact Or.inl ⟨h1, hne⟩
      · exact Or.inr ⟨h2, rfl⟩

/-- Rootedness bound after attaching `rx` beneath `ry`. -/
theorem attach_rootedBound {p4 : Node → Node} {rx ry : Node} {b : ℕ}
    (hrx : isRoot p4 rx) (hry : isRoot p4 ry) (hne : ry ≠ rx)
    (hb : RootedBound p4 b) :
    RootedBound (Function.update p4 rx ry) (b + 1) := by
  intro x
  obtain ⟨j, hj, hroot⟩ := hb x
  by_cases hs : iterPar p4 j x = rx
  · obtain ⟨j', hj', hiter, hroot'⟩ := attach_reach_r2 hry hrx hne j x hs
    exact ⟨j', by omega, by rw [hiter]; exact hroot'⟩
  · obtain ⟨j', hj', hiter, hroot'⟩ :=
      attach_reach_ne hry hrx hne j x (iterPar p4 j x) rfl hroot hs
    exact ⟨j', by omega, by rw [hiter]; exact hroot'⟩

/-- Appending an edge between two components that were not linked keeps
every edge a bridge. -/
theorem acyclic_append {E : List (ℕ × Node × Node)} {e : ℕ × Node × Node}
    (hacyc : AcyclicList E) (hnl : ¬ linked E e.2.1 e.2.2) :
    AcyclicList (E ++ [e]) := by
  intro i h
  have hlen : i < E.length + 1 := by
    simpa using h
  by_cases hi : i < E.length
  · have hget : (E ++ [e]).get ⟨i, h⟩ = E.get ⟨i, hi⟩ := by
      show (E ++ [e])[i] = E[i]
      exact List.getElem_append_left hi
    have herase : (E ++ [e]).eraseIdx i = E.eraseIdx i ++ [e] :=
      List.eraseIdx_append_of_lt_length hi [e]
    rw [hget, herase]
    intro hlink
    have hsub : ∀ x ∈ E.eraseIdx i, x ∈ E :=
      fun x hx => (List.eraseIdx_sublist E i).mem hx
    have hedge : linked E (E.get ⟨i, hi⟩).2.1 (E.get ⟨i, hi⟩).2.2 :=
      linked_of_mem (E.get_mem i hi)
    rcases linked_append_iff.mp hlink with h1 | ⟨h1, h2⟩ | ⟨h1, h2⟩
    · exact hacyc i hi h1
    · exact hnl (((linked_symm (linked_mono hsub h1)).trans hedge).trans
        (linked_symm (linked_mono hsub h2)))
    · exact hnl (((linked_mono hsub h2).trans (linked_symm hedge)).trans
        (linked_mono hsub h1))
  · have hieq : i = E.length := by omega
    subst hieq
    have hget : (E ++ [e]).get ⟨E.length, h⟩ = e := by
      show (E ++ [e])[E.length] = e
      rw [List.getElem_append_right (le_refl _)]
      simp
    have herase : (E ++ [e]).eraseIdx E.length = E := by
      rw [List.eraseIdx_append_of_length_le (le_refl _)]
      simp
    rw [hget, herase]
    exact hnl

/-- The two symmetric appends of one accepted edge, at the level of the
membership characterisation of the MST dictionary. -/
theorem mst_update_adj (mst : Node → List (Node × ℕ))
    (E : List (ℕ × Node × Node)) (e : ℕ × Node × Node)
    (hadj : ∀ u v w, (v, w) ∈ mst u ↔ ((w, u, v) ∈ E ∨ (w, v, u) ∈ E))
    (hne : e.2.1 ≠ e.2.2) :
    ∀ u v w,
      (v, w) ∈ Function.update
          (Function.update mst e.2.1 (mst e.2.1 ++ [(e.2.2, e.1)])) e.2.2
          (Function.update mst e.2.1 (mst e.2.1 ++ [(e.2.2, e.1)]) e.2.2
            ++ [(e.2.1, e.1)]) u ↔
        ((w, u, v) ∈ E ++ [e] ∨ (w, v, u) ∈ E ++ [e]) := by
  intro u v w
  rcases e with ⟨ew, ea, ec⟩
  simp only at hne ⊢
  have hne' : ec ≠ ea := Ne.symm hne
  by_cases hu2 : u = ec
  · subst hu2
    rw [Function.update_same, Function.update_noteq (Ne.symm hne)]
    simp only [List.mem_append, List.mem_singleton, hadj, Prod.mk.injEq, hne, hne',
      false_and, and_false, or_false, false_or]
    tauto
  · rw [Function.update_noteq hu2]
    by_cases hu1 : u = ea
    · subst hu1
      rw [Function.update_same]
      simp only [List.mem_append, List.mem_singleton, hadj, Prod.mk.injEq, hne, hne',
        false_and, and_false, or_false, false_or]
      tauto
    · rw [Function.update_noteq hu1]
      have hu1' : ea ≠ u := Ne.symm hu1
      have hu2' : ec ≠ u := Ne.symm hu2
      simp only [List.mem_append, List.mem_singleton, hadj, Prod.mk.injEq,
        hu1', hu2', false_and, and_false, or_false, false_or]
      tauto

/-- Pointwise length effect of the two appends. -/
theorem mst_update_len (mst : Node → List (Node × ℕ)) (e : ℕ × Node × Node)
    (hne : e.2.1 ≠ e.2.2) :
    ∀ v, (Function.update
        (Function.update mst e.2.1 (mst e.2.1 ++ [(e.2.2, e.1)])) e.2.2
        (Function.update mst e.2.1 (mst e.2.1 ++ [(e.2.2, e.1)]) e.2.2
          ++ [(e.2.1, e.1)]) v).length
      = (mst v).length + (if v = e.2.1 then 1 else 0) + (if v = e.2.2 then 1 else 0) := by
  intro v
  by_cases hv2 : v = e.2.2
  · subst hv2
    rw [Function.update_same, Function.update_noteq (Ne.symm hne)]
    simp [if_neg (Ne.symm hne)]
  · rw [Function.update_noteq hv2]
    by_cases hv1 : v = e.2.1
    · subst hv1
      rw [Function.update_same]
      simp [if_neg (fun h => hv2 h)]
    · rw [Function.update_noteq hv1]
      simp [hv1, hv2]

theorem sameSet_of_reach_iff {p q : Node → Node}
    (h : ∀ x s, reachRoot p x s ↔ reachRoot q x s) :
    ∀ u v, SameSet p u v ↔ SameSet q u v := by
  intro u v
  constructor
  · rintro ⟨r, h1, h2⟩
    exact ⟨r, (h u r).mp h1, (h v r).mp h2⟩
  · rintro ⟨r, h1, h2⟩
    exact ⟨r, (h u r).mpr h1, (h v r).mpr h2⟩

/-- One `__kruskal` loop iteration preserves the invariant, growing the
accepted list by the processed edge exactly when its endpoints were in
different components; either way the processed edge's endpoints are
linked afterwards. -/
theorem kruskal_step_inv (G : UGraph) (st : KState)
    (E : List (ℕ × Node × Node)) (e : ℕ × Node × Node)
    (hInv : KInv G st E) (hnd : G.nodes.Nodup)
    (he1 : e.2.1 ∈ G.nodes) (he2 : e.2.2 ∈ G.nodes) :
    ∃ E', (∀ x ∈ E, x ∈ E') ∧
      KInv G (kruskal_step (G.nodes.length + 1) st e) E' ∧
      linked E' e.2.1 e.2.2 := by
  obtain ⟨hrooted, hclosed, hout, hcount, hpart, hadj, hcnt2, hacyc, hends⟩ := hInv
  have hfuel : E.length ≤ G.nodes.length + 1 := by omega
  rcases hf1 : find_fuel (G.nodes.length + 1) st.uf.parent e.2.1 with ⟨p1, ra⟩
  rcases hf2 : find_fuel (G.nodes.length + 1) p1 e.2.2 with ⟨p2, rc⟩
  obtain ⟨ha1, hc2, hreach2, hroots2, hb2, hclosed2, hout2⟩ :=
    guard_finds G st.uf.parent E.length _ hrooted hfuel hclosed hout
      e.2.1 e.2.2 he1 he2 p1 p2 ra rc hf1 hf2
  have hstep : kruskal_step (G.nodes.length + 1) st e =
      if ra ≠ rc then
        { uf := union (G.nodes.length + 1)
            { parent := p2, rank := st.uf.rank } e.2.1 e.2.2,
          mst := Function.update
            (Function.update st.mst e.2.1 (st.mst e.2.1 ++ [(e.2.2, e.1)])) e.2.2
            (Function.update st.mst e.2.1 (st.mst e.2.1 ++ [(e.2.2, e.1)]) e.2.2
              ++ [(e.2.1, e.1)]) }
      else { uf := { parent := p2, rank := st.uf.rank }, mst := st.mst } := by
    unfold kruskal_step
    dsimp only
    rw [hf1]
    dsimp only
    rw [hf2]
  by_cases hrarc : ra = rc
  · rw [hstep, if_neg (fun h => h hrarc)]
    refine ⟨E, fun x hx => hx, ⟨hb2, hclosed2, hout2, ?_, ?_, hadj, hcnt2, hacyc,
      hends⟩, ?_⟩
    · show E.length + rootsCount G p2 = G.nodes.length
      have : rootsCount G p2 = rootsCount G st.uf.parent := by
        unfold rootsCount
        have hfc : G.nodes.filter (fun v => decide (p2 v = v))
            = G.nodes.filter (fun v => decide (st.uf.parent v = v)) :=
          List.filter_congr (fun v _ => decide_eq_decide.mpr (hroots2 v))
        rw [hfc]
      rw [this]
      exact hcount
    · intro u v
      rw [show SameSet p2 u v ↔ SameSet st.uf.parent u v from
        sameSet_of_reach_iff hreach2 u v]
      exact hpart u v
    · exact (hpart _ _).mp ((sameSet_iff_roots ha1 hc2).mpr hrarc)
  · rw [hstep, if_pos hrarc]
    have hneAC : e.2.1 ≠ e.2.2 := by
      intro h
      exact hrarc (reachRoot_unique (h ▸ ha1) hc2)
    have hnl : ¬ linked E e.2.1 e.2.2 := by
      intro h
      exact hrarc (sameSet_iff_roots ha1 hc2 |>.mp ((hpart _ _).mpr h))
    rcases hf3 : find_fuel (G.nodes.length + 1) p2 e.2.1 with ⟨p3, ra3⟩
    rcases hf4 : find_fuel (G.nodes.length + 1) p3 e.2.2 with ⟨p4, rc4⟩
    obtain ⟨ha3, hc4, hreach4, hroots4, hb4, hclosed4, hout4⟩ :=
      guard_finds G p2 E.length _ hb2 hfuel hclosed2 hout2
        e.2.1 e.2.2 he1 he2 p3 p4 ra3 rc4 hf3 hf4
    have hra3 : ra3 = ra :=
      reachRoot_unique ((hreach2 _ _).mp ha3) ha1
    have hrc4 : rc4 = rc :=
      reachRoot_unique ((hreach2 _ _).mp hc4) hc2
    have hra3' : ra = ra3 := hra3.symm
    have hrc4' : rc = rc4 := hrc4.symm
    subst hra3'
    subst hrc4'
    have hparRa : isRoot st.uf.parent ra := by
      obtain ⟨j, _, h⟩ := ha1
      exact h
    have hparRc : isRoot st.uf.parent rc := by
      obtain ⟨j, _, h⟩ := hc2
      exact h
    have h4ra : isRoot p4 ra := (hroots4 ra).mpr ((hroots2 ra).mpr hparRa)
    have h4rc : isRoot p4 rc := (hroots4 rc).mpr ((hroots2 rc).mpr hparRc)
    have hreach42 : ∀ x s, reachRoot p4 x s ↔ reachRoot st.uf.parent x s :=
      fun x s => (hreach4 x s).trans (hreach2 x s)
    have hroots42 : ∀ s, isRoot p4 s ↔ isRoot st.uf.parent s :=
      fun s => (hroots4 s).trans (hroots2 s)
    have hramem : ra ∈ G.nodes := root_mem hclosed he1 ha1
    have hrcmem : rc ∈ G.nodes := root_mem hclosed he2 hc2
    have hRa : ∀ z, reachRoot p4 z ra ↔ linked E z e.2.1 := fun z =>
      (hreach42 z ra).trans ((sameSet_reach_left ha1 z).symm.trans (hpart z e.2.1))
    have hRc : ∀ z, reachRoot p4 z rc ↔ linked E z e.2.2 := fun z =>
      (hreach42 z rc).trans ((sameSet_reach_left hc2 z).symm.trans (hpart z e.2.2))
    have hSS : ∀ u v, SameSet p4 u v ↔ linked E u v := fun u v =>
      (sameSet_of_reach_iff hreach42 u v).trans (hpart u v)
    have hsymmE : ∀ x y, linked E x y ↔ linked E y x :=
      fun x y => ⟨linked_symm, linked_symm⟩
    have hcnt4 : rootsCount G p4 = rootsCount G st.uf.parent := by
      unfold rootsCount
      have hfc : G.nodes.filter (fun v => decide (p4 v = v))
          = G.nodes.filter (fun v => decide (st.uf.parent v = v)) :=
        List.filter_congr (fun v _ => decide_eq_decide.mpr (hroots42 v))
      rw [hfc]
    have hlink : linked (E ++ [e]) e.2.1 e.2.2 :=
      linked_of_mem (by simp : e ∈ E ++ [e])
    have hsub : ∀ x ∈ E, x ∈ E ++ [e] := fun x hx => List.mem_append_left _ hx
    have main : ∀ (rx ry : Node) (rk : Node → ℕ),
        (rx = ra ∧ ry = rc) ∨ (rx = rc ∧ ry = ra) →
        KInv G
          { uf := { parent := Function.update p4 rx ry, rank := rk },
            mst := Function.update
              (Function.update st.mst e.2.1 (st.mst e.2.1 ++ [(e.2.2, e.1)])) e.2.2
              (Function.update st.mst e.2.1 (st.mst e.2.1 ++ [(e.2.2, e.1)]) e.2.2
                ++ [(e.2.1, e.1)]) }
          (E ++ [e]) := by
      intro rx ry rk hdisj
      have hrx : isRoot p4 rx := by
        rcases hdisj with ⟨rfl, _⟩ | ⟨rfl, _⟩
        exacts [h4ra, h4rc]
      have hry : isRoot p4 ry := by
        rcases hdisj with ⟨_, rfl⟩ | ⟨_, rfl⟩
        exacts [h4rc, h4ra]
      have hne : ry ≠ rx := by
        rcases hdisj with ⟨rfl, rfl⟩ | ⟨rfl, rfl⟩
        · exact fun h => hrarc h.symm
        · exact hrarc
      have hrxmem : rx ∈ G.nodes := by
        rcases hdisj with ⟨rfl, _⟩ | ⟨rfl, _⟩
        exacts [hramem, hrcmem]
      have hrymem : ry ∈ G.nodes := by
        rcases hdisj with ⟨_, rfl⟩ | ⟨_, rfl⟩
        exacts [hrcmem, hramem]
      refine ⟨?_, ?_, ?_, ?_, ?_, ?_, ?_, ?_, ?_⟩
      · show RootedBound (Function.update p4 rx ry) (E ++ [e]).length
        have h := attach_rootedBound hrx hry hne hb4
        simpa using h
      · intro v hv
        show Function.update p4 rx ry v ∈ G.nodes
        by_cases hvx : v = rx
        · subst hvx
          rw [Function.update_same]
          exact hrymem
        · rw [Function.update_noteq hvx]
          exact hclosed4 v hv
      · intro v hv
        show Function.update p4 rx ry v = v
        have hvrx : v ≠ rx := fun h => hv (by rw [h]; exact hrxmem)
        rw [Function.update_noteq hvrx]
        exact hout4 v hv
      · show (E ++ [e]).length + rootsCount G (Function.update p4 rx ry)
          = G.nodes.length
        have hQ : ∀ x, (decide (Function.update p4 rx ry x = x) : Bool)
            = (decide (p4 x = x) && decide (x ≠ rx)) := by
          intro x
          rw [← Bool.decide_and]
          exact decide_eq_decide.mpr (attach_isRoot hry hrx hne x)
        have hdrop := filter_length_drop hnd hrxmem
          (fun v => decide (p4 v = v))
          (fun v => decide (Function.update p4 rx ry v = v)) hQ
          (by simp only [decide_eq_true_eq]; exact hrx)
        have hfinal : rootsCount G (Function.update p4 rx ry) + 1
            = rootsCount G st.uf.parent := by
          rw [← hcnt4]
          unfold rootsCount
          exact hdrop
        simp only [List.length_append, List.length_singleton]
        omega
      · intro u v
        show SameSet (Function.update p4 rx ry) u v ↔ linked (E ++ [e]) u v
        rw [attach_sameSet_iff hrx hry hne hb4.total u v, linked_append_iff,
          hSS u v]
        rcases hdisj with ⟨rfl, rfl⟩ | ⟨rfl, rfl⟩
        · rw [hRa u, hRc v, hRc u, hRa v, hsymmE v e.2.2, hsymmE v e.2.1]
        · rw [hRc u, hRa v, hRa u, hRc v, hsymmE v e.2.1, hsymmE v e.2.2]
          tauto
      · exact mst_update_adj st.mst E e hadj hneAC
      · show (G.nodes.map fun v => (Function.update
            (Function.update st.mst e.2.1 (st.mst e.2.1 ++ [(e.2.2, e.1)])) e.2.2
            (Function.update st.mst e.2.1 (st.mst e.2.1 ++ [(e.2.2, e.1)]) e.2.2
              ++ [(e.2.1, e.1)]) v).length).sum = 2 * (E ++ [e]).length
        have hlen := mst_update_len st.mst e hneAC
        simp only [hlen]
        rw [sum_map_add, sum_map_add, hcnt2,
          sum_map_indicator G.nodes hnd e.2.1 he1,
          sum_map_indicator G.nodes hnd e.2.2 he2]
        simp only [List.length_append, List.length_singleton]
        ring
      · exact acyclic_append hacyc hnl
      · intro f hf
        rcases List.mem_append.mp hf with h | h
        · exact hends f h
        · have : f = e := List.mem_singleton.mp h
          subst this
          exact ⟨he1, he2, hneAC⟩
    have hunion : union (G.nodes.length + 1)
        { parent := p2, rank := st.uf.rank } e.2.1 e.2.2 =
        if st.uf.rank ra > st.uf.rank rc then
          { parent := Function.update p4 rc ra, rank := st.uf.rank }
        else if st.uf.rank ra < st.uf.rank rc then
          { parent := Function.update p4 ra rc, rank := st.uf.rank }
        else
          { parent := Function.update p4 rc ra,
            rank := Function.update st.uf.rank ra (st.uf.rank ra + 1) } := by
      unfold union
      dsimp only
      rw [hf3]
      dsimp only
      rw [hf4]
    rw [hunion]
    by_cases hrk1 : st.uf.rank ra > st.uf.rank rc
    · rw [if_pos hrk1]
      exact ⟨E ++ [e], hsub, main rc ra st.uf.rank (Or.inr ⟨rfl, rfl⟩), hlink⟩
    · rw [if_neg hrk1]
      by_cases hrk2 : st.uf.rank ra < st.uf.rank rc
      · rw [if_pos hrk2]
        exact ⟨E ++ [e], hsub, main ra rc st.uf.rank (Or.inl ⟨rfl, rfl⟩), hlink⟩
      · rw [if_neg hrk2]
        exact ⟨E ++ [e], hsub,
          main rc ra (Function.update st.uf.rank ra (st.uf.rank ra + 1))
            (Or.inr ⟨rfl, rfl⟩), hlink⟩

theorem kruskal_fold_inv (G : UGraph) (hnd : G.nodes.Nodup) :
    ∀ (edges : List (ℕ × Node × Node)),
      (∀ f ∈ edges, f.2.1 ∈ G.nodes ∧ f.2.2 ∈ G.nodes) →
      ∀ (st : KState) (E : List (ℕ × Node × Node)), KInv G st E →
      ∃ E', (∀ x ∈ E, x ∈ E') ∧
        KInv G (edges.foldl (kruskal_step (G.nodes.length + 1)) st) E' ∧
        (∀ f ∈ edges, linked E' f.2.1 f.2.2) := by
  intro edges
  induction edges with
  | nil =>
    intro _ st E hInv
    exact ⟨E, fun x hx => hx, hInv, fun f hf => absurd hf (List.not_mem_nil f)⟩
  | cons f fs ih =>
    intro hE st E hInv
    obtain ⟨E1, hsub1, hInv1, hlink1⟩ := kruskal_step_inv G st E f hInv hnd
      (hE f (List.mem_cons_self f fs)).1 (hE f (List.mem_cons_self f fs)).2
    obtain ⟨E2, hsub2, hInv2, hlink2⟩ :=
      ih (fun g hg => hE g (List.mem_cons_of_mem f hg))
        (kruskal_step (G.nodes.length + 1) st f) E1 hInv1
    refine ⟨E2, fun x hx => hsub2 x (hsub1 x hx), hInv2, ?_⟩
    intro g hg
    rcases List.mem_cons.mp hg with rfl | hg'
    · exact linked_mono hsub2 hlink1
    · exact hlink2 g hg'

/-- C2: on every well-formed, connected, nonempty input dictionary the
`__kruskal` output is the symmetric adjacency representation of an
accepted edge list with exactly N − 1 edges that is acyclic (every edge
is a bridge) and links every pair of input nodes. -/
theorem kruskal_spanning_tree (G : UGraph) (hwf : WFgraph G)
    (hconn : connectedG G) (hnonempty : G.nodes ≠ []) :
    ∃ T : List (ℕ × Node × Node),
      T.length + 1 = G.nodes.length ∧
      AcyclicList T ∧
      (∀ u ∈ G.nodes, ∀ v ∈ G.nodes, linked T u v) ∧
      (∀ u v w, (v, w) ∈ kruskal G u ↔ ((w, u, v) ∈ T ∨ (w, v, u) ∈ T)) ∧
      (G.nodes.map fun v => (kruskal G v).length).sum = 2 * T.length ∧
      (∀ f ∈ T, f.2.1 ∈ G.nodes ∧ f.2.2 ∈ G.nodes ∧ f.2.1 ≠ f.2.2) := by
  obtain ⟨hnd, hcl⟩ := hwf
  have hEdges : ∀ f ∈ (create_edge_list G).mergeSort edge_le,
      f.2.1 ∈ G.nodes ∧ f.2.2 ∈ G.nodes := by
    intro f hf
    have hf' : f ∈ create_edge_list G := List.mem_mergeSort.mp hf
    unfold create_edge_list at hf'
    rw [List.mem_bind] at hf'
    obtain ⟨node, hnode, hmem⟩ := hf'
    rw [List.mem_map] at hmem
    obtain ⟨nb, hnb, rfl⟩ := hmem
    exact ⟨hnode, hcl node hnode nb hnb⟩
  obtain ⟨E', hsub, hInv, hlinkall⟩ :=
    kruskal_fold_inv G hnd ((create_edge_list G).mergeSort edge_le) hEdges
      { uf := { parent := fun v => v, rank := fun _ => 0 }, mst := fun _ => [] }
      [] (kruskal_init_inv G hnd)
  have hadjlink : ∀ u v, adjacentG G u v → linked E' u v := by
    intro u v h
    rcases h with ⟨hu, hv⟩ | ⟨hv, hu⟩
    · have hmem : (calculate_weight u v, u, v) ∈ create_edge_list G := by
        unfold create_edge_list
        rw [List.mem_bind]
        exact ⟨u, hu, List.mem_map.mpr ⟨v, hv, rfl⟩⟩
      exact hlinkall _ (List.mem_mergeSort.mpr hmem)
    · have hmem : (calculate_weight v u, v, u) ∈ create_edge_list G := by
        unfold create_edge_list
        rw [List.mem_bind]
        exact ⟨v, hv, List.mem_map.mpr ⟨u, hu, rfl⟩⟩
      exact linked_symm (hlinkall _ (List.mem_mergeSort.mpr hmem))
  have hlinked : ∀ u ∈ G.nodes, ∀ v ∈ G.nodes, linked E' u v := by
    intro u hu v hv
    have h := hconn u hu v hv
    clear hv
    induction h with
    | refl => exact Relation.ReflTransGen.refl
    | tail h1 h2 ih => exact Relation.ReflTransGen.trans ih (hadjlink _ _ h2)
  rcases hfold : ((create_edge_list G).mergeSort edge_le).foldl
      (kruskal_step (G.nodes.length + 1))
      { uf := { parent := fun v => v, rank := fun _ => 0 }, mst := fun _ => [] }
    with ⟨⟨parF, rankF⟩, mstF⟩
  rw [hfold] at hInv
  have hkr : kruskal G = mstF := by
    show (((create_edge_list G).mergeSort edge_le).foldl
      (kruskal_step (G.nodes.length + 1))
      { uf := { parent := fun v => v, rank := fun _ => 0 },
        mst := fun _ => [] }).mst = mstF
    rw [hfold]
  have hrootedF : RootedBound parF E'.length := hInv.rooted
  have hclosedF : ∀ v ∈ G.nodes, parF v ∈ G.nodes := hInv.closed
  have hcountF : E'.length + rootsCount G parF = G.nodes.length := hInv.count
  have hpartF : ∀ u v, SameSet parF u v ↔ linked E' u v := hInv.partition
  have hadjF : ∀ u v w, (v, w) ∈ mstF u ↔ ((w, u, v) ∈ E' ∨ (w, v, u) ∈ E') :=
    hInv.mstAdj
  have hcnt2F : (G.nodes.map fun v => (mstF v).length).sum = 2 * E'.length :=
    hInv.mstCount
  have hone : (G.nodes.filter fun v => decide (parF v = v)).length ≤ 1 := by
    apply nodup_all_eq_length_le_one (hnd.filter _)
    intro a ha b hb
    have ha' := List.mem_filter.mp ha
    have hb' := List.mem_filter.mp hb
    have haR : parF a = a := of_decide_eq_true ha'.2
    have hbR : parF b = b := of_decide_eq_true hb'.2
    have hss : SameSet parF a b := (hpartF a b).mpr (hlinked a ha'.1 b hb'.1)
    obtain ⟨r, ⟨j, hj, _⟩, ⟨j', hj', _⟩⟩ := hss
    rw [iterPar_root parF haR j] at hj
    rw [iterPar_root parF hbR j'] at hj'
    rw [hj, ← hj']
  obtain ⟨v0, hv0⟩ := List.exists_mem_of_ne_nil G.nodes hnonempty
  obtain ⟨j0, _, hroot0⟩ := hrootedF v0
  have hr0mem : iterPar parF j0 v0 ∈ G.nodes := iterPar_mem hclosedF j0 v0 hv0
  have hmemf : iterPar parF j0 v0 ∈ G.nodes.filter (fun v => decide (parF v = v)) :=
    List.mem_filter.mpr ⟨hr0mem, decide_eq_true hroot0⟩
  have hpos : 1 ≤ (G.nodes.filter fun v => decide (parF v = v)).length :=
    List.length_pos.mpr (List.ne_nil_of_mem hmemf)
  have hcnt : E'.length + 1 = G.nodes.length := by
    unfold rootsCount at hcountF
    omega
  refine ⟨E', hcnt, hInv.acyclic, hlinked, ?_, ?_, hInv.endpoints⟩
  · intro u v w
    rw [hkr]
    exact hadjF u v w
  · rw [hkr]
    exact hcnt2F

/-- Two-node input dictionary used to witness the C2 theorem. -/
def gC2 : UGraph :=
  { nodes := [(0, 0), (3, 4)],
    adj := fun v =>
      if v = ((0 : ℤ), (0 : ℤ)) then [(3, 4)]
      else if v = ((3 : ℤ), (4 : ℤ)) then [(0, 0)] else [] }

/-- Witness for `kruskal_spanning_tree` on the two-node line graph. -/
theorem kruskal_spanning_tree_witness :
    (WFgraph gC2 ∧ connectedG gC2 ∧ gC2.nodes ≠ []) ∧
    ∃ T : List (ℕ × Node × Node),
      T.length + 1 = gC2.nodes.length ∧
      AcyclicList T ∧
      (∀ u ∈ gC2.nodes, ∀ v ∈ gC2.nodes, linked T u v) ∧
      (∀ u v w, (v, w) ∈ kruskal gC2 u ↔ ((w, u, v) ∈ T ∨ (w, v, u) ∈ T)) ∧
      (gC2.nodes.map fun v => (kruskal gC2 v).length).sum = 2 * T.length ∧
      (∀ f ∈ T, f.2.1 ∈ gC2.nodes ∧ f.2.2 ∈ gC2.nodes ∧ f.2.1 ≠ f.2.2) := by
  have hwf : WFgraph gC2 := by
    constructor
    · decide
    · decide
  have hconn : connectedG gC2 := by
    intro u hu v hv
    have hadjAB : adjacentG gC2 (0, 0) (3, 4) :=
      Or.inl ⟨by simp [gC2], by simp [gC2]⟩
    have hadjBA : adjacentG gC2 (3, 4) (0, 0) :=
      Or.inl ⟨by simp [gC2], by simp [gC2]⟩
    simp only [gC2, List.mem_cons, List.mem_singleton, List.not_mem_nil,
      or_false] at hu hv
    rcases hu with rfl | rfl <;> rcases hv with rfl | rfl
    · exact Relation.ReflTransGen.refl
    · exact Relation.ReflTransGen.single hadjAB
    · exact Relation.ReflTransGen.single hadjBA
    · exact Relation.ReflTransGen.refl
  have hne : gC2.nodes ≠ [] := by
    simp [gC2]
  exact ⟨⟨hwf, hconn, hne⟩, kruskal_spanning_tree gC2 hwf hconn hne⟩

/-! ### Dijkstra (src/dijkstra.py)

The road graph `__graph` is a dictionary from nodes to weighted
neighbour lists.  `__distances` maps nodes to `float` distances
(`float('inf')` for unreached nodes): embedded as a total function into
`WithTop ℕ` (the code only ever reads entries that the dictionary
holds: `current_node` under the `in self.__graph` guard, neighbours of
graph keys, and `end` under the `in self.__distances` guard).
`__previous` maps nodes to optional predecessors (`None` for the start
node): embedded as a total function into `Option Node`.  The `while`
loops (the main queue loop and the path-reconstruction walk) become
fuelled recursions; the fuel is proved sufficient below, so the
exhaustion branches are unreachable in the theorems. -/

/-- The input dictionary `__graph`: keys and weighted adjacency lists. -/
structure WGraph where
  nodes : List Node
  adj : Node → List (Node × ℕ)

/-- A road network dictionary: distinct keys, every neighbour is a key,
and every edge weight is a positive integer (road lengths). -/
def WFroad (G : WGraph) : Prop :=
  G.nodes.Nodup ∧ ∀ u ∈ G.nodes, ∀ e ∈ G.adj u, e.1 ∈ G.nodes ∧ 1 ≤ e.2

/-- Specification-side walks: `WalkL G u p e w` says `p` is a node
sequence from `u` to `e` following adjacency entries whose weights sum
to `w`. -/
inductive WalkL (G : WGraph) : Node → List Node → Node → ℕ → Prop
  | nil (u : Node) : WalkL G u [u] u 0
  | cons {u v e : Node} {w wr : ℕ} {l : List Node} (hu : u ∈ G.nodes)
      (hvw : (v, w) ∈ G.adj u) (h : WalkL G v l e wr) :
      WalkL G u (u :: l) e (w + wr)

/-- `e` is reachable from `s` in the road graph. -/
def Reachable (G : WGraph) (s e : Node) : Prop := ∃ p w, WalkL G s p e w

/-- The mutable state of `Dijkstra.compute`: distances, predecessors,
and the priority queue's element list. -/
structure DState where
  dist : Node → WithTop ℕ
  prev : Node → Option Node
  queue : List QEntry

/-- One iteration of `for neighbour, weight in self.__graph[current_node]`:
relax the edge, record the predecessor, push the neighbour. -/
def relax_one (cur : Node) (st : DState) (e : Node × ℕ) : DState :=
  let distance := st.dist cur + (e.2 : WithTop ℕ)
  if distance < st.dist e.1 then
    { dist := Function.update st.dist e.1 distance,
      prev := Function.update st.prev e.1 (some cur),
      queue := insert_item st.queue e.1 (distance.untop' 0) }
  else st

/-- The body of one `while` iteration after the pop: the popped node's
edges are relaxed only when it is a key of the graph. -/
def dstep (G : WGraph) (st : DState) (entry : QEntry) (rest : List QEntry) : DState :=
  let st1 : DState := { dist := st.dist, prev := st.prev, queue := rest }
  if entry.2 ∈ G.nodes then (G.adj entry.2).foldl (relax_one entry.2) st1 else st1

/-- The fuelled main loop `while not self.__queue.is_empty()`. -/
def dloop (G : WGraph) : ℕ → DState → DState
  | 0, st => st
  | fuel + 1, st =>
    match pop_item st.queue with
    | none => st
    | some (entry, rest) => dloop G fuel (dstep G st entry rest)

/-- The state after the initialisation phase of `compute`: every graph
key at infinity, the start at `0` and pushed with priority `0`, and
`previous = {start: None}`. -/
def dinit (G : WGraph) (start : Node) : DState :=
  { dist := fun v => if v = start then (0 : WithTop ℕ) else ⊤,
    prev := fun _ => none,
    queue := insert_item [] start 0 }

/-- The fuelled reconstruction loop `while node is not None`:
`path.insert(0, node)` prepends, so the result lists the chain from the
start to the queried node. -/
def buildPath (prev : Node → Option Node) : ℕ → Option Node → List Node
  | _, none => []
  | 0, some _ => []
  | fuel + 1, some node => buildPath prev fuel (prev node) ++ [node]

/-- Largest edge weight mentioned in the adjacency dictionary. -/
def maxW (G : WGraph) : ℕ :=
  (G.nodes.map fun u => ((G.adj u).map Prod.snd).foldr max 0).foldr max 0

/-- Fuel for the main loop, proved sufficient below: one more than the
largest possible value of the termination measure (queue length plus
total remaining distance potential). -/
def dfuel (G : WGraph) : ℕ :=
  G.nodes.length * (G.nodes.length * maxW G + 1 + 1) + 1

/-- Fuel for the reconstruction loop, proved sufficient below (the
distance strictly decreases along the predecessor chain). -/
def bfuel (G : WGraph) : ℕ := G.nodes.length * maxW G + 1

/-- Embedding of `Dijkstra.compute`.  `float('inf')` becomes `⊤`; the
final guard `end in self.__distances` is membership in the keys of the
distances dictionary (the graph keys plus the start node). -/
def compute (G : WGraph) (start e : Node) : List Node × WithTop ℕ :=
  let final := dloop G (dfuel G) (dinit G start)
  if (e ∈ G.nodes ∨ e = start) ∧ final.dist e ≠ ⊤ then
    (buildPath final.prev (bfuel G) (some e), final.dist e)
  else ([], ⊤)

/-! Queue operations only permute entries (plus one append / one
removal); none of the correctness proofs below depend on the heap
order, so the `pop(0)` heap defect (claim C3) does not matter here. -/

theorem cons_set_perm {α : Type} :
    ∀ (t : List α) (m : ℕ) (x : α) (hm : m < t.length),
      (t.get ⟨m, hm⟩ :: t.set m x).Perm (x :: t) := by
  intro t
  induction t with
  | nil =>
    intro m x hm
    exact absurd hm (by simp)
  | cons y t' ih =>
    intro m x hm
    cases m with
    | zero =>
      exact List.Perm.swap x y t'
    | succ m =>
      have hm' : m < t'.length := by simpa using hm
      exact (List.Perm.swap _ _ _).trans
        (((ih m x hm').cons y).trans (List.Perm.swap _ _ _))

theorem set_set_perm {α : Type} :
    ∀ (l : List α) (i j : ℕ) (hi : i < l.length) (hj : j < l.length),
      ((l.set i (l.get ⟨j, hj⟩)).set j (l.get ⟨i, hi⟩)).Perm l := by
  intro l
  induction l with
  | nil =>
    intro i j hi
    exact absurd hi (by simp)
  | cons x t ih =>
    intro i j hi hj
    cases i with
    | zero =>
      cases j with
      | zero => exact List.Perm.refl _
      | succ m =>
        have hm : m < t.length := by simpa using hj
        exact cons_set_perm t m x hm
    | succ n =>
      cases j with
      | zero =>
        have hn : n < t.length := by simpa using hi
        exact cons_set_perm t n x hn
      | succ m =>
        have hn : n < t.length := by simpa using hi
        have hm : m < t.length := by simpa using hj
        exact ((ih n m hn hm)).cons x

theorem listSwap_perm {α : Type} (l : List α) (i j : ℕ) :
    (listSwap l i j).Perm l := by
  unfold listSwap
  rcases hi : l.get? i with _ | a
  · exact List.Perm.refl _
  · rcases hj : l.get? j with _ | b
    · exact List.Perm.refl _
    · obtain ⟨hib, hia⟩ := List.get?_eq_some.mp hi
      obtain ⟨hjb, hjv⟩ := List.get?_eq_some.mp hj
      rw [← hia, ← hjv]
      exact set_set_perm l i j hib hjb

theorem bubble_up_fuel_perm :
    ∀ (fuel : ℕ) (l : List QEntry) (i : ℕ), (bubble_up_fuel fuel l i).Perm l := by
  intro fuel
  induction fuel with
  | zero => intro l i; exact List.Perm.refl _
  | succ fuel ih =>
    intro l i
    show (if 0 < i ∧ qprio l i < qprio l ((i - 1) / 2) then
        bubble_up_fuel fuel (listSwap l i ((i - 1) / 2)) ((i - 1) / 2)
      else l).Perm l
    split
    · exact (ih _ _).trans (listSwap_perm l i ((i - 1) / 2))
    · exact List.Perm.refl _

theorem bubble_down_fuel_perm :
    ∀ (fuel : ℕ) (l : List QEntry) (i : ℕ), (bubble_down_fuel fuel l i).Perm l := by
  intro fuel
  induction fuel with
  | zero => intro l i; exact List.Perm.refl _
  | succ fuel ih =>
    intro l i
    show (if 2 * i + 1 < l.length then
        let ci := if 2 * i + 2 < l.length ∧
            qprio l (2 * i + 2) < qprio l (2 * i + 1)
          then 2 * i + 2 else 2 * i + 1
        if qprio l ci < qprio l i then
          bubble_down_fuel fuel (listSwap l i ci) ci
        else l
      else l).Perm l
    split
    · dsimp only
      split
      · split
        · exact (ih _ _).trans (listSwap_perm l i _)
        · exact List.Perm.refl _
      · split
        · exact (ih _ _).trans (listSwap_perm l i _)
        · exact List.Perm.refl _
    · exact List.Perm.refl _

theorem insert_item_perm (l : List QEntry) (item : Node) (p : ℕ) :
    (insert_item l item p).Perm (l ++ [(p, item)]) :=
  bubble_up_fuel_perm _ _ _

theorem pop_item_none_iff (l : List QEntry) : pop_item l = none ↔ l = [] := by
  match l with
  | [] => simp [pop_item]
  | [e] => simp [pop_item]
  | e :: f :: t => simp [pop_item]

theorem pop_item_perm :
    ∀ {l : List QEntry} {e : QEntry} {rest : List QEntry},
      pop_item l = some (e, rest) → l.Perm (e :: rest) := by
  intro l
  match l with
  | [] => intro e rest h; exact absurd h (by simp [pop_item])
  | [x] =>
    intro e rest h
    have : x = e ∧ [] = rest := by
      simpa [pop_item, Prod.ext_iff] using h
    rw [← this.1, ← this.2]
  | x :: y :: t =>
    intro e rest h
    have : x = e ∧ bubble_down (y :: t) 0 = rest := by
      simpa [pop_item, Prod.ext_iff] using h
    rw [← this.1, ← this.2]
    exact ((bubble_down_fuel_perm _ _ _).symm).cons x

/-- A walk annotated with distance-prefix bounds: `acc` is the weight
accumulated before `u`, and every visited node's current tentative
distance is at most the accumulated weight at its position.  Every
finite tentative distance during the run is the weight of such a
(duplicate-free) walk from the start. -/
inductive WalkB (G : WGraph) (dist : Node → WithTop ℕ) :
    ℕ → Node → List Node → Node → ℕ → Prop
  | nil (acc : ℕ) (u : Node) (h : dist u ≤ (acc : WithTop ℕ)) :
      WalkB G dist acc u [u] u 0
  | cons (acc : ℕ) {u v e : Node} {w wr : ℕ} {l : List Node}
      (hd : dist u ≤ (acc : WithTop ℕ)) (hu : u ∈ G.nodes)
      (hvw : (v, w) ∈ G.adj u) (h : WalkB G dist (acc + w) v l e wr) :
      WalkB G dist acc u (u :: l) e (w + wr)

theorem WalkB.toWalkL {G : WGraph} {dist : Node → WithTop ℕ} {acc : ℕ}
    {u e : Node} {p : List Node} {w : ℕ} (h : WalkB G dist acc u p e w) :
    WalkL G u p e w := by
  induction h with
  | nil acc u h => exact WalkL.nil u
  | cons acc hd hu hvw h ih => exact WalkL.cons hu hvw ih

theorem WalkB.mono {G : WGraph} {dist dist' : Node → WithTop ℕ}
    (hmono : ∀ x, dist' x ≤ dist x) {acc : ℕ} {u e : Node} {p : List Node}
    {w : ℕ} (h : WalkB G dist acc u p e w) : WalkB G dist' acc u p e w := by
  induction h with
  | nil acc u h => exact WalkB.nil acc u ((hmono u).trans h)
  | cons acc hd hu hvw h ih => exact WalkB.cons acc ((hmono _).trans hd) hu hvw ih

theorem WalkB.mem_le {G : WGraph} {dist : Node → WithTop ℕ} {acc : ℕ}
    {u e : Node} {p : List Node} {w : ℕ} (h : WalkB G dist acc u p e w) :
    ∀ x ∈ p, dist x ≤ ((acc + w : ℕ) : WithTop ℕ) := by
  induction h with
  | nil acc u h =>
    intro x hx
    have hxu : x = u := List.mem_singleton.mp hx
    subst hxu
    exact h.trans (by exact_mod_cast Nat.le_add_right acc 0)
  | cons acc hd hu hvw h ih =>
    rename_i u v e w wr l
    intro x hx
    rcases List.mem_cons.mp hx with rfl | hx'
    · exact hd.trans (by exact_mod_cast Nat.le_add_right acc (w + wr))
    · have := ih x hx'
      have harith : acc + w + wr = acc + (w + wr) := by omega
      rw [harith] at this
      exact this

theorem WalkB.append_edge {G : WGraph} {dist : Node → WithTop ℕ} :
    ∀ {acc : ℕ} {u c : Node} {p : List Node} {wc : ℕ},
      WalkB G dist acc u p c wc → ∀ {v : Node} {w : ℕ}, c ∈ G.nodes →
      (v, w) ∈ G.adj c → dist v ≤ ((acc + wc + w : ℕ) : WithTop ℕ) →
      WalkB G dist acc u (p ++ [v]) v (wc + w) := by
  intro acc u c p wc h
  induction h with
  | nil acc u h =>
    intro v w hc hvw hv
    have hv' : dist v ≤ ((acc + w : ℕ) : WithTop ℕ) := by
      have : acc + 0 + w = acc + w := by omega
      rw [this] at hv
      exact hv
    have : WalkB G dist acc u ([u] ++ [v]) v (w + 0) :=
      WalkB.cons acc h hc hvw (WalkB.nil (acc + w) v hv')
    rw [show w + 0 = 0 + w from by omega] at this
    exact this
  | cons acc hd hu hvw h ih =>
    rename_i u v0 e w0 wr l
    intro v w hc hvw2 hv
    have hv' : dist v ≤ ((acc + w0 + wr + w : ℕ) : WithTop ℕ) := by
      have : acc + (w0 + wr) + w = acc + w0 + wr + w := by omega
      rw [this] at hv
      exact hv
    have := WalkB.cons acc hd hu hvw (ih hc hvw2 hv')
    rw [show w0 + (wr + w) = w0 + wr + w from by omega] at this
    exact this

theorem WalkL.append_node {G : WGraph} :
    ∀ {s c : Node} {p : List Node} {wc : ℕ},
      WalkL G s p c wc → ∀ {v : Node} {w : ℕ}, c ∈ G.nodes →
      (v, w) ∈ G.adj c → WalkL G s (p ++ [v]) v (wc + w) := by
  intro s c p wc h
  induction h with
  | nil u =>
    intro v w hc hvw
    have : WalkL G u ([u] ++ [v]) v (w + 0) :=
      WalkL.cons hc hvw (WalkL.nil v)
    rw [show w + 0 = 0 + w from by omega] at this
    exact this
  | cons hu hvw h ih =>
    rename_i u v0 e w0 wr l
    intro v w hc hvw2
    have := WalkL.cons hu hvw (ih hc hvw2)
    rw [show w0 + (wr + w) = w0 + wr + w from by omega] at this
    exact this

theorem le_foldr_max : ∀ (l : List ℕ) (a : ℕ), a ∈ l → a ≤ l.foldr max 0 := by
  intro l
  induction l with
  | nil => intro a ha; exact absurd ha (List.not_mem_nil a)
  | cons x t ih =>
    intro a ha
    rcases List.mem_cons.mp ha with rfl | ha'
    · exact le_max_left _ _
    · exact (ih a ha').trans (le_max_right _ _)

theorem weight_le_maxW {G : WGraph} {u v : Node} {w : ℕ}
    (hu : u ∈ G.nodes) (hvw : (v, w) ∈ G.adj u) : w ≤ maxW G := by
  have h1 : w ∈ (G.adj u).map Prod.snd := List.mem_map.mpr ⟨(v, w), hvw, rfl⟩
  have h2 : w ≤ ((G.adj u).map Prod.snd).foldr max 0 := le_foldr_max _ w h1
  have h3 : ((G.adj u).map Prod.snd).foldr max 0
      ∈ G.nodes.map fun u => ((G.adj u).map Prod.snd).foldr max 0 :=
    List.mem_map.mpr ⟨u, hu, rfl⟩
  exact h2.trans (le_foldr_max _ _ h3)

theorem WalkL.length_pos {G : WGraph} {u e : Node} {p : List Node} {w : ℕ}
    (h : WalkL G u p e w) : 1 ≤ p.length := by
  cases h with
  | nil => simp
  | cons hu hvw h => simp

theorem WalkL.weight_le {G : WGraph} {u e : Node} {p : List Node} {w : ℕ}
    (h : WalkL G u p e w) : w ≤ (p.length - 1) * maxW G := by
  induction h with
  | nil u => simp
  | cons hu hvw h ih =>
    rename_i u v e w0 wr l
    have hlen : 1 ≤ l.length := h.length_pos
    have hw0 : w0 ≤ maxW G := weight_le_maxW hu hvw
    have : w0 + wr ≤ maxW G + (l.length - 1) * maxW G := Nat.add_le_add hw0 ih
    have heq : maxW G + (l.length - 1) * maxW G = l.length * maxW G := by
      have : l.length - 1 + 1 = l.length := by omega
      calc maxW G + (l.length - 1) * maxW G = (l.length - 1 + 1) * maxW G := by ring
        _ = l.length * maxW G := by rw [this]
    rw [heq] at this
    simpa using this

theorem WalkL.mem_nodes {G : WGraph} {u e : Node} {p : List Node} {w : ℕ}
    (h : WalkL G u p e w) (he : e ∈ G.nodes) : ∀ x ∈ p, x ∈ G.nodes := by
  induction h with
  | nil u =>
    intro x hx
    rw [List.mem_singleton.mp hx]
    exact he
  | cons hu hvw h ih =>
    intro x hx
    rcases List.mem_cons.mp hx with rfl | hx'
    · exact hu
    · exact ih he x hx'

/-- A duplicate-free walk among the graph nodes weighs at most
`(N - 1) · maxW ≤ N · maxW`. -/
theorem WalkL.weight_le_bound {G : WGraph} {u e : Node} {p : List Node} {w : ℕ}
    (h : WalkL G u p e w) (hnd : p.Nodup) (he : e ∈ G.nodes) :
    w ≤ G.nodes.length * maxW G := by
  have hsub : p ⊆ G.nodes := fun x hx => h.mem_nodes he x hx
  have hlen : p.length ≤ G.nodes.length := (hnd.subperm hsub).length_le
  have := h.weight_le
  have hmul : (p.length - 1) * maxW G ≤ G.nodes.length * maxW G :=
    Nat.mul_le_mul_right _ (by omega)
  exact this.trans hmul

/-- A node has a pending entry in a queue. -/
def inQL (q : List QEntry) (u : Node) : Prop := ∃ x ∈ q, x.2 = u

theorem inQL_insert {q : List QEntry} {u : Node} (item : Node) (p : ℕ)
    (h : inQL q u) : inQL (insert_item q item p) u := by
  obtain ⟨x, hx, hxu⟩ := h
  exact ⟨x, ((insert_item_perm q item p).mem_iff).mpr
    (List.mem_append_left _ hx), hxu⟩

theorem inQL_insert_self (q : List QEntry) (item : Node) (p : ℕ) :
    inQL (insert_item q item p) item :=
  ⟨(p, item), ((insert_item_perm q item p).mem_iff).mpr
    (List.mem_append_right _ (List.mem_singleton_self _)), rfl⟩

theorem insert_item_length (q : List QEntry) (item : Node) (p : ℕ) :
    (insert_item q item p).length = q.length + 1 := by
  rw [(insert_item_perm q item p).length_eq]
  simp

/-- The run invariant of the main loop, apart from the pending-edge
property: the start keeps distance `0`; finite distances only occur on
graph nodes; every finite distance is the weight of a duplicate-free
prefix-bounded walk from the start; the predecessor map records a
relaxed in-edge of every assigned node and nothing for the start; and
every finite node other than the start has a predecessor. -/
structure DCore (G : WGraph) (start : Node) (st : DState) : Prop where
  dstart : st.dist start = 0
  finiteMem : ∀ v, st.dist v ≠ ⊤ → v ∈ G.nodes
  finite_walk : ∀ (v : Node) (d : ℕ), st.dist v = (d : WithTop ℕ) →
    ∃ p, WalkB G st.dist 0 start p v d ∧ p.Nodup
  prevStart : st.prev start = none
  prevEdge : ∀ v c, st.prev v = some c → c ∈ G.nodes ∧ st.dist v ≠ ⊤ ∧
    ∃ w, (v, w) ∈ G.adj c ∧ st.dist c + (w : WithTop ℕ) ≤ st.dist v
  finitePrev : ∀ v, st.dist v ≠ ⊤ → v = start ∨ ∃ c, st.prev v = some c

/-- Every adjacency entry is either already relaxed, or its source node
is still queued (or excepted by `S`: during one node's edge loop the
popped node itself is the exception). -/
def PendingW (G : WGraph) (st : DState) (S : Node → Prop) : Prop :=
  ∀ u ∈ G.nodes, ∀ e ∈ G.adj u,
    st.dist e.1 ≤ st.dist u + (e.2 : WithTop ℕ) ∨ inQL st.queue u ∨ S u

/-- The full loop invariant. -/
def DInv (G : WGraph) (start : Node) (st : DState) : Prop :=
  DCore G start st ∧ PendingW G st (fun _ => False)

/-- Distance potential: `⊤` counts as `B + 1`; every finite distance is
at most `B` by the walk invariant, so each relaxation drops it. -/
def pot (B : ℕ) (d : WithTop ℕ) : ℕ := d.untop' (B + 1)

/-- Distance bound used by the termination measure. -/
def distB (G : WGraph) : ℕ := G.nodes.length * maxW G

/-- Termination measure of the main loop. -/
def measureD (G : WGraph) (st : DState) : ℕ :=
  st.queue.length + (G.nodes.map fun v => pot (distB G) (st.dist v)).sum

theorem DCore.dist_le_B {G : WGraph} {start : Node} {st : DState}
    (h : DCore G start st) {v : Node} {d : ℕ}
    (hd : st.dist v = (d : WithTop ℕ)) : d ≤ distB G := by
  obtain ⟨p, hwalk, hnd⟩ := h.finite_walk v d hd
  have hvmem : v ∈ G.nodes := h.finiteMem v (by rw [hd]; exact WithTop.coe_ne_top)
  exact hwalk.toWalkL.weight_le_bound hnd hvmem

theorem sum_map_update_pot (l : List Node) :
    l.Nodup → ∀ (g : Node → ℕ) (v : Node), v ∈ l → ∀ (a : ℕ),
    (l.map fun x => if x = v then a else g x).sum + g v = (l.map g).sum + a := by
  induction l with
  | nil => intro _ g v hv; exact absurd hv (List.not_mem_nil v)
  | cons x t ih =>
    intro hnd g v hv a
    by_cases hxv : x = v
    · subst hxv
      have hxt : x ∉ t := (List.nodup_cons.mp hnd).1
      have hmap : t.map (fun y => if y = x then a else g y) = t.map g := by
        apply List.map_congr_left
        intro y hy
        have : y ≠ x := fun h => hxt (h ▸ hy)
        rw [if_neg this]
      simp only [List.map_cons, List.sum_cons, hmap, if_true]
      omega
    · have hvt : v ∈ t := by
        rcases List.mem_cons.mp hv with h | h
        · exact absurd h.symm hxv
        · exact h
      have := ih (List.nodup_cons.mp hnd).2 g v hvt a
      simp only [List.map_cons, List.sum_cons, if_neg hxv]
      omega

theorem dinit_queue (G : WGraph) (start : Node) :
    (dinit G start).queue = [(0, start)] := rfl

theorem dinit_inv (G : WGraph) (start : Node) (hstart : start ∈ G.nodes) :
    DInv G start (dinit G start) := by
  constructor
  · constructor
    · show (if start = start then (0 : WithTop ℕ) else ⊤) = 0
      rw [if_pos rfl]
    · intro v hv
      show v ∈ G.nodes
      by_cases hvs : v = start
      · exact hvs ▸ hstart
      · exact absurd (show (dinit G start).dist v = ⊤ from if_neg hvs) hv
    · intro v d hd
      by_cases hvs : v = start
      · have h0 : (dinit G start).dist v = 0 := if_pos hvs
        have h0' : (dinit G start).dist start = 0 := if_pos rfl
        rw [h0] at hd
        have hd0 : d = 0 := by exact_mod_cast hd.symm
        subst hd0
        refine ⟨[v], ?_, List.nodup_singleton v⟩
        rw [hvs]
        exact WalkB.nil 0 start (by rw [h0']; simp)
      · exact absurd (show (dinit G start).dist v = ⊤ from if_neg hvs)
          (by rw [hd]; exact WithTop.coe_ne_top)
    · rfl
    · intro v c h
      exact absurd h (by simp [dinit])
    · intro v hv
      by_cases hvs : v = start
      · exact Or.inl hvs
      · exact absurd (show (dinit G start).dist v = ⊤ from if_neg hvs) hv
  · intro u hu e _
    by_cases hus : u = start
    · subst hus
      refine Or.inr (Or.inl ?_)
      rw [dinit_queue]
      exact ⟨(0, u), List.mem_singleton_self _, rfl⟩
    · left
      have : (dinit G start).dist u = ⊤ := if_neg hus
      rw [this, top_add]
      exact le_top

theorem pot_le (B : ℕ) (d : WithTop ℕ) (hd : d.untop' 0 ≤ B) :
    pot B d ≤ B + 1 := by
  unfold pot
  cases d with
  | top => exact le_refl _
  | coe f =>
    rw [WithTop.untop'_coe] at hd ⊢
    omega

theorem dinit_measure (G : WGraph) (start : Node) :
    measureD G (dinit G start) ≤ dfuel G := by
  unfold measureD
  rw [dinit_queue]
  have hsum : (G.nodes.map fun v => pot (distB G) ((dinit G start).dist v)).sum
      ≤ (G.nodes.map fun v => pot (distB G) ((dinit G start).dist v)).length
        * (distB G + 1) := by
    have := List.sum_le_card_nsmul
      (G.nodes.map fun v => pot (distB G) ((dinit G start).dist v)) (distB G + 1)
      ?_
    · simpa [smul_eq_mul] using this
    · intro x hx
      obtain ⟨v, _, rfl⟩ := List.mem_map.mp hx
      apply pot_le
      show ((if v = start then (0 : WithTop ℕ) else ⊤)).untop' 0 ≤ distB G
      split
      · simp
      · simp
  rw [List.length_map] at hsum
  unfold dfuel
  rw [show G.nodes.length * maxW G = distB G from rfl]
  have h2 : G.nodes.length * (distB G + 1) ≤ G.nodes.length * (distB G + 1 + 1) :=
    Nat.mul_le_mul_left _ (by omega)
  simp only [List.length_cons, List.length_nil]
  omega

/-- Effect of one edge relaxation: the invariant core and the pending
property are preserved, distances only decrease, the current node's
distance and the relaxed target's bound are controlled, queue entries
persist, and the termination measure does not increase. -/
theorem relax_one_spec (G : WGraph) (hndG : G.nodes.Nodup)
    (hWF : ∀ u ∈ G.nodes, ∀ e ∈ G.adj u, e.1 ∈ G.nodes ∧ 1 ≤ e.2)
    (start cur : Node) (hcur : cur ∈ G.nodes) (st : DState)
    (hCore : DCore G start st) (e : Node × ℕ) (he : e ∈ G.adj cur) :
    DCore G start (relax_one cur st e) ∧
    (∀ S, PendingW G st S → PendingW G (relax_one cur st e) S) ∧
    (∀ x, (relax_one cur st e).dist x ≤ st.dist x) ∧
    (relax_one cur st e).dist cur = st.dist cur ∧
    (relax_one cur st e).dist e.1 ≤ st.dist cur + (e.2 : WithTop ℕ) ∧
    (∀ u, inQL st.queue u → inQL (relax_one cur st e).queue u) ∧
    measureD G (relax_one cur st e) ≤ measureD G st := by
  rcases e with ⟨v, w⟩
  by_cases hguard : st.dist cur + (w : WithTop ℕ) < st.dist v
  case neg =>
    have hrel : relax_one cur st (v, w) = st := by
      unfold relax_one
      dsimp only
      rw [if_neg hguard]
    rw [hrel]
    exact ⟨hCore, fun S h => h, fun x => le_refl _, rfl, not_lt.mp hguard,
      fun u h => h, le_refl _⟩
  case pos =>
    have hcurne : st.dist cur ≠ ⊤ := by
      intro hc
      rw [hc, top_add] at hguard
      exact not_top_lt hguard
    obtain ⟨dcur, hdcur⟩ := WithTop.ne_top_iff_exists.mp hcurne
    have hnewd : st.dist cur + (w : WithTop ℕ) = ((dcur + w : ℕ) : WithTop ℕ) := by
      rw [← hdcur]
      norm_cast
    have hvnodes : v ∈ G.nodes := (hWF cur hcur (v, w) he).1
    have hcurnev : cur ≠ v := by
      intro hcv
      rw [← hcv] at hguard
      exact absurd hguard (not_lt.mpr (self_le_add_right _ _))
    have hvnestart : v ≠ start := by
      intro hvs
      rw [hvs, hCore.dstart] at hguard
      exact absurd hguard (not_lt.mpr (zero_le _))
    have hrel : relax_one cur st (v, w) = {
        dist := Function.update st.dist v (st.dist cur + (w : WithTop ℕ)),
        prev := Function.update st.prev v (some cur),
        queue := insert_item st.queue v
          ((st.dist cur + (w : WithTop ℕ)).untop' 0) } := by
      unfold relax_one
      dsimp only
      rw [if_pos hguard]
    rw [hrel]
    have hupd_ne : ∀ x, x ≠ v →
        Function.update st.dist v (st.dist cur + (w : WithTop ℕ)) x = st.dist x :=
      fun x hx => Function.update_noteq hx _ _
    have hupd_eq : Function.update st.dist v (st.dist cur + (w : WithTop ℕ)) v
        = st.dist cur + (w : WithTop ℕ) := Function.update_same _ _ _
    have hprev_ne : ∀ x, x ≠ v →
        Function.update st.prev v (some cur) x = st.prev x :=
      fun x hx => Function.update_noteq hx _ _
    have hprev_eq : Function.update st.prev v (some cur) v = some cur :=
      Function.update_same _ _ _
    have hmono : ∀ x,
        Function.update st.dist v (st.dist cur + (w : WithTop ℕ)) x ≤ st.dist x := by
      intro x
      by_cases hx : x = v
      · rw [hx, hupd_eq]
        exact le_of_lt (hx ▸ hguard)
      · rw [hupd_ne x hx]
    obtain ⟨pc, hpc, hpcnd⟩ := hCore.finite_walk cur dcur hdcur.symm
    have hvnotin : v ∉ pc := by
      intro hvin
      have h1 := hpc.mem_le v hvin
      rw [Nat.zero_add] at h1
      have h2 : st.dist v ≤ st.dist cur + (w : WithTop ℕ) := by
        rw [← hdcur]
        exact h1.trans (self_le_add_right _ _)
      exact absurd hguard (not_lt.mpr h2)
    have hvcond : Function.update st.dist v (st.dist cur + (w : WithTop ℕ)) v
        ≤ ((0 + dcur + w : ℕ) : WithTop ℕ) := by
      rw [hupd_eq, hnewd, Nat.zero_add]
    have hwalkv : WalkB G
        (Function.update st.dist v (st.dist cur + (w : WithTop ℕ)))
        0 start (pc ++ [v]) v (dcur + w) :=
      (hpc.mono hmono).append_edge hcur he hvcond
    have hndv : (pc ++ [v]).Nodup := by
      rw [List.nodup_append]
      refine ⟨hpcnd, List.nodup_singleton v, ?_⟩
      intro x hx hxv
      rw [List.mem_singleton.mp hxv] at hx
      exact hvnotin hx
    have hbound : dcur + w ≤ distB G :=
      hwalkv.toWalkL.weight_le_bound hndv hvnodes
    refine ⟨?_, ?_, hmono, ?_, ?_, ?_, ?_⟩
    · constructor
      · show Function.update st.dist v _ start = 0
        rw [hupd_ne start (Ne.symm hvnestart)]
        exact hCore.dstart
      · intro x hx
        dsimp only at hx
        by_cases hxv : x = v
        · exact hxv ▸ hvnodes
        · rw [show Function.update st.dist v (st.dist cur + (w : WithTop ℕ)) x
              = st.dist x from hupd_ne x hxv] at hx
          exact hCore.finiteMem x hx
      · intro x d hd
        dsimp only at hd
        by_cases hxv : x = v
        · rw [hxv, hupd_eq, hnewd] at hd
          have hdval : dcur + w = d := WithTop.coe_eq_coe.mp hd
          refine ⟨pc ++ [v], ?_, hndv⟩
          rw [hxv, ← hdval]
          exact hwalkv
        · rw [show Function.update st.dist v (st.dist cur + (w : WithTop ℕ)) x
              = st.dist x from hupd_ne x hxv] at hd
          obtain ⟨px, hpx, hpxnd⟩ := hCore.finite_walk x d hd
          exact ⟨px, hpx.mono hmono, hpxnd⟩
      · show Function.update st.prev v (some cur) start = none
        rw [hprev_ne start (Ne.symm hvnestart)]
        exact hCore.prevStart
      · intro x c hx
        dsimp only at hx
        by_cases hxv : x = v
        · rw [hxv, hprev_eq] at hx
          have hc : cur = c := Option.some.inj hx
          refine ⟨hc ▸ hcur, ?_, w, ?_, ?_⟩
          · show Function.update st.dist v (st.dist cur + (w : WithTop ℕ)) x ≠ ⊤
            rw [hxv, hupd_eq, hnewd]
            exact WithTop.coe_ne_top
          · rw [hxv]
            exact hc ▸ he
          · have hcnev : c ≠ v := fun hcv => hcurnev (hc ▸ hcv)
            show Function.update st.dist v (st.dist cur + (w : WithTop ℕ)) c
                + (w : WithTop ℕ)
              ≤ Function.update st.dist v (st.dist cur + (w : WithTop ℕ)) x
            rw [hupd_ne c hcnev, hxv, hupd_eq, ← hc]
        · rw [show Function.update st.prev v (some cur) x = st.prev x from
            hprev_ne x hxv] at hx
          obtain ⟨hcn, hne, w', hw'adj, hle⟩ := hCore.prevEdge x c hx
          refine ⟨hcn, ?_, w', hw'adj, ?_⟩
          · show Function.update st.dist v (st.dist cur + (w : WithTop ℕ)) x ≠ ⊤
            rw [show Function.update st.dist v (st.dist cur + (w : WithTop ℕ)) x
              = st.dist x from hupd_ne x hxv]
            exact hne
          · show Function.update st.dist v (st.dist cur + (w : WithTop ℕ)) c
                + (w' : WithTop ℕ)
              ≤ Function.update st.dist v (st.dist cur + (w : WithTop ℕ)) x
            rw [show Function.update st.dist v (st.dist cur + (w : WithTop ℕ)) x
              = st.dist x from hupd_ne x hxv]
            exact (add_le_add_right (hmono c) _).trans hle
      · intro x hx
        dsimp only at hx
        by_cases hxv : x = v
        · refine Or.inr ⟨cur, ?_⟩
          show Function.update st.prev v (some cur) x = some cur
          rw [hxv, hprev_eq]
        · rw [show Function.update st.dist v (st.dist cur + (w : WithTop ℕ)) x
            = st.dist x from hupd_ne x hxv] at hx
          rcases hCore.finitePrev x hx with h | ⟨c, hc⟩
          · exact Or.inl h
          · refine Or.inr ⟨c, ?_⟩
            show Function.update st.prev v (some cur) x = some c
            rw [show Function.update st.prev v (some cur) x = st.prev x from
              hprev_ne x hxv]
            exact hc
    · intro S hS u hu f hf
      rcases hS u hu f hf with h1 | h2 | h3
      · by_cases huv : u = v
        · refine Or.inr (Or.inl ?_)
          show inQL (insert_item st.queue v _) u
          rw [huv]
          exact inQL_insert_self _ _ _
        · left
          show Function.update st.dist v (st.dist cur + (w : WithTop ℕ)) f.1
            ≤ Function.update st.dist v (st.dist cur + (w : WithTop ℕ)) u
              + (f.2 : WithTop ℕ)
          rw [hupd_ne u huv]
          exact (hmono f.1).trans h1
      · exact Or.inr (Or.inl (inQL_insert _ _ h2))
      · exact Or.inr (Or.inr h3)
    · show Function.update st.dist v (st.dist cur + (w : WithTop ℕ)) cur
        = st.dist cur
      exact hupd_ne cur hcurnev
    · show Function.update st.dist v (st.dist cur + (w : WithTop ℕ)) v
        ≤ st.dist cur + (w : WithTop ℕ)
      rw [hupd_eq]
    · intro u hq
      exact inQL_insert _ _ hq
    · show (insert_item st.queue v ((st.dist cur + (w : WithTop ℕ)).untop' 0)).length
          + (G.nodes.map fun x => pot (distB G)
              (Function.update st.dist v (st.dist cur + (w : WithTop ℕ)) x)).sum
        ≤ measureD G st
      have hpt : ∀ x, pot (distB G)
          (Function.update st.dist v (st.dist cur + (w : WithTop ℕ)) x)
          = if x = v then pot (distB G) (st.dist cur + (w : WithTop ℕ))
            else pot (distB G) (st.dist x) := by
        intro x
        by_cases hx : x = v
        · rw [hx, hupd_eq, if_pos rfl]
        · rw [hupd_ne x hx, if_neg hx]
      have hsum := sum_map_update_pot G.nodes hndG
        (fun x => pot (distB G) (st.dist x)) v hvnodes
        (pot (distB G) (st.dist cur + (w : WithTop ℕ)))
      have hdrop : pot (distB G) (st.dist cur + (w : WithTop ℕ)) + 1
          ≤ pot (distB G) (st.dist v) := by
        rw [hnewd]
        cases hdv : st.dist v with
        | top =>
          show dcur + w + 1 ≤ distB G + 1
          omega
        | coe fv =>
          show dcur + w + 1 ≤ fv
          have hlt2 : ((dcur + w : ℕ) : WithTop ℕ) < st.dist v := by
            rw [← hnewd]
            exact hguard
          rw [hdv] at hlt2
          have hlt3 : ((dcur + w : ℕ) : WithTop ℕ) < ((fv : ℕ) : WithTop ℕ) := hlt2
          have : dcur + w < fv := by exact_mod_cast hlt3
          omega
      rw [insert_item_length]
      simp only [hpt]
      unfold measureD
      omega

theorem relax_fold_spec (G : WGraph) (hndG : G.nodes.Nodup)
    (hWF : ∀ u ∈ G.nodes, ∀ e ∈ G.adj u, e.1 ∈ G.nodes ∧ 1 ≤ e.2)
    (start cur : Node) (hcur : cur ∈ G.nodes) :
    ∀ (es : List (Node × ℕ)), (∀ e ∈ es, e ∈ G.adj cur) →
    ∀ st : DState, DCore G start st →
    DCore G start (es.foldl (relax_one cur) st) ∧
    (∀ S, PendingW G st S → PendingW G (es.foldl (relax_one cur) st) S) ∧
    (∀ x, (es.foldl (relax_one cur) st).dist x ≤ st.dist x) ∧
    ((es.foldl (relax_one cur) st).dist cur = st.dist cur) ∧
    (∀ u, inQL st.queue u → inQL (es.foldl (relax_one cur) st).queue u) ∧
    measureD G (es.foldl (relax_one cur) st) ≤ measureD G st ∧
    (∀ e ∈ es, (es.foldl (relax_one cur) st).dist e.1
      ≤ (es.foldl (relax_one cur) st).dist cur + (e.2 : WithTop ℕ)) := by
  intro es
  induction es with
  | nil =>
    intro _ st hCore
    exact ⟨hCore, fun S h => h, fun x => le_refl _, rfl, fun u h => h, le_refl _,
      fun e he => absurd he (List.not_mem_nil e)⟩
  | cons f fs ih =>
    intro hes st hCore
    obtain ⟨hC1, hP1, hM1, hcur1, htar1, hQ1, hme1⟩ :=
      relax_one_spec G hndG hWF start cur hcur st hCore f
        (hes f (List.mem_cons_self f fs))
    obtain ⟨hC2, hP2, hM2, hcur2, hQ2, hme2, htail⟩ :=
      ih (fun e he => hes e (List.mem_cons_of_mem f he)) (relax_one cur st f) hC1
    refine ⟨hC2, fun S hS => hP2 S (hP1 S hS), fun x => (hM2 x).trans (hM1 x),
      hcur2.trans hcur1, fun u h => hQ2 u (hQ1 u h), hme2.trans hme1, ?_⟩
    intro e he
    rcases List.mem_cons.mp he with rfl | he'
    · have h1 : (fs.foldl (relax_one cur) (relax_one cur st e)).dist e.1
          ≤ (relax_one cur st e).dist e.1 := hM2 e.1
      have h4 : (fs.foldl (relax_one cur) (relax_one cur st e)).dist cur
          = st.dist cur := hcur2.trans hcur1
      have h5 := h1.trans htar1
      rw [← h4] at h5
      exact h5
    · exact htail e he'

theorem dstep_spec (G : WGraph) (hndG : G.nodes.Nodup)
    (hWF : ∀ u ∈ G.nodes, ∀ e ∈ G.adj u, e.1 ∈ G.nodes ∧ 1 ≤ e.2)
    (start : Node) (st : DState) (ent : QEntry) (rest : List QEntry)
    (hpop : pop_item st.queue = some (ent, rest)) (hInv : DInv G start st) :
    DInv G start (dstep G st ent rest) ∧
    measureD G (dstep G st ent rest) < measureD G st := by
  obtain ⟨hCore, hPend⟩ := hInv
  have hperm := pop_item_perm hpop
  have hlen : st.queue.length = rest.length + 1 := by
    rw [hperm.length_eq]
    simp
  have hstep : dstep G st ent rest =
      if ent.2 ∈ G.nodes then
        (G.adj ent.2).foldl (relax_one ent.2)
          { dist := st.dist, prev := st.prev, queue := rest }
      else { dist := st.dist, prev := st.prev, queue := rest } := rfl
  have hCore1 : DCore G start { dist := st.dist, prev := st.prev, queue := rest } :=
    ⟨hCore.dstart, hCore.finiteMem, hCore.finite_walk, hCore.prevStart,
      hCore.prevEdge, hCore.finitePrev⟩
  have hPend1 : PendingW G { dist := st.dist, prev := st.prev, queue := rest }
      (fun u => u = ent.2) := by
    intro u hu f hf
    rcases hPend u hu f hf with h1 | h2 | h3
    · exact Or.inl h1
    · by_cases hue : u = ent.2
      · exact Or.inr (Or.inr hue)
      · obtain ⟨q, hq, hq2⟩ := h2
        have hq' : q ∈ ent :: rest := hperm.mem_iff.mp hq
        rcases List.mem_cons.mp hq' with rfl | hqrest
        · exact absurd hq2.symm hue
        · exact Or.inr (Or.inl ⟨q, hqrest, hq2⟩)
    · exact h3.elim
  have hm1 : measureD G { dist := st.dist, prev := st.prev, queue := rest } + 1
      = measureD G st := by
    unfold measureD
    dsimp only
    omega
  by_cases hcur : ent.2 ∈ G.nodes
  · obtain ⟨hC2, hP2, _, _, _, hme2, hall⟩ :=
      relax_fold_spec G hndG hWF start ent.2 hcur (G.adj ent.2) (fun e he => he)
        { dist := st.dist, prev := st.prev, queue := rest } hCore1
    rw [hstep, if_pos hcur]
    refine ⟨⟨hC2, ?_⟩, by omega⟩
    intro u hu f hf
    rcases hP2 _ hPend1 u hu f hf with h1 | h2 | h3
    · exact Or.inl h1
    · exact Or.inr (Or.inl h2)
    · left
      rw [h3] at hf ⊢
      exact hall f hf
  · rw [hstep, if_neg hcur]
    refine ⟨⟨hCore1, ?_⟩, by omega⟩
    intro u hu f hf
    rcases hPend1 u hu f hf with h1 | h2 | h3
    · exact Or.inl h1
    · exact Or.inr (Or.inl h2)
    · exact absurd (h3 ▸ hu) hcur

theorem dloop_spec (G : WGraph) (hndG : G.nodes.Nodup)
    (hWF : ∀ u ∈ G.nodes, ∀ e ∈ G.adj u, e.1 ∈ G.nodes ∧ 1 ≤ e.2)
    (start : Node) :
    ∀ (fuel : ℕ) (st : DState), DInv G start st → measureD G st ≤ fuel →
    DInv G start (dloop G fuel st) ∧ (dloop G fuel st).queue = [] := by
  intro fuel
  induction fuel with
  | zero =>
    intro st hInv hm
    have hq : st.queue.length = 0 := by
      unfold measureD at hm
      omega
    exact ⟨hInv, List.length_eq_zero.mp hq⟩
  | succ fuel ih =>
    intro st hInv hm
    rcases hpop : pop_item st.queue with _ | ⟨ent, rest⟩
    · have hq : st.queue = [] := (pop_item_none_iff _).mp hpop
      have hd : dloop G (fuel + 1) st = st := by
        show (match pop_item st.queue with
          | none => st
          | some (entry, rest) => dloop G fuel (dstep G st entry rest)) = st
        rw [hpop]
      rw [hd]
      exact ⟨hInv, hq⟩
    · obtain ⟨hInv2, hmlt⟩ := dstep_spec G hndG hWF start st ent rest hpop hInv
      have hd : dloop G (fuel + 1) st = dloop G fuel (dstep G st ent rest) := by
        show (match pop_item st.queue with
          | none => st
          | some (entry, rest) => dloop G fuel (dstep G st entry rest))
          = dloop G fuel (dstep G st ent rest)
        rw [hpop]
      rw [hd]
      exact ih (dstep G st ent rest) hInv2 (by omega)

/-- After the main loop: the core invariant holds and no edge is
relaxable (the queue is empty, so the pending disjunct is gone). -/
theorem dfinal_spec (G : WGraph) (hndG : G.nodes.Nodup)
    (hWF : ∀ u ∈ G.nodes, ∀ e ∈ G.adj u, e.1 ∈ G.nodes ∧ 1 ≤ e.2)
    (start : Node) (hstart : start ∈ G.nodes) :
    DCore G start (dloop G (dfuel G) (dinit G start)) ∧
    (∀ u ∈ G.nodes, ∀ e ∈ G.adj u,
      (dloop G (dfuel G) (dinit G start)).dist e.1
        ≤ (dloop G (dfuel G) (dinit G start)).dist u + (e.2 : WithTop ℕ)) := by
  obtain ⟨⟨hCore, hPend⟩, hq⟩ := dloop_spec G hndG hWF start (dfuel G)
    (dinit G start) (dinit_inv G start hstart) (dinit_measure G start)
  refine ⟨hCore, ?_⟩
  intro u hu e he
  rcases hPend u hu e he with h1 | h2 | h3
  · exact h1
  · obtain ⟨q, hqq, _⟩ := h2
    rw [hq] at hqq
    exact absurd hqq (List.not_mem_nil q)
  · exact h3.elim

/-- When no edge is relaxable, the tentative distance is a lower bound
along every walk. -/
theorem dist_le_walk {G : WGraph} {dist : Node → WithTop ℕ}
    (hNP : ∀ u ∈ G.nodes, ∀ e ∈ G.adj u, dist e.1 ≤ dist u + (e.2 : WithTop ℕ)) :
    ∀ {u : Node} {p : List Node} {e : Node} {w : ℕ},
      WalkL G u p e w → dist e ≤ dist u + (w : WithTop ℕ) := by
  intro u p e w h
  induction h with
  | nil u => simp
  | cons hu hvw h ih =>
    rename_i u v e w0 wr l
    have h2 : dist v + (wr : WithTop ℕ) ≤ (dist u + (w0 : WithTop ℕ)) + wr :=
      add_le_add_right (hNP u hu (v, w0) hvw) _
    have h3 := ih.trans h2
    rw [add_assoc] at h3
    have hc : ((w0 : WithTop ℕ) + (wr : WithTop ℕ)) = ((w0 + wr : ℕ) : WithTop ℕ) := by
      norm_cast
    rw [hc] at h3
    exact h3

/-- Path reconstruction: from any node with finite final distance the
predecessor chain builds a walk from the start whose weight is exactly
that distance (fuel larger than the distance suffices: each predecessor
step drops the distance by at least one). -/
theorem buildPath_walk (G : WGraph) (start : Node)
    (hWF : ∀ u ∈ G.nodes, ∀ e ∈ G.adj u, e.1 ∈ G.nodes ∧ 1 ≤ e.2)
    (st : DState) (hCore : DCore G start st)
    (hNP : ∀ u ∈ G.nodes, ∀ e ∈ G.adj u,
      st.dist e.1 ≤ st.dist u + (e.2 : WithTop ℕ)) :
    ∀ (fuel : ℕ) (v : Node) (d : ℕ), st.dist v = (d : WithTop ℕ) → d < fuel →
      WalkL G start (buildPath st.prev fuel (some v)) v d := by
  intro fuel
  induction fuel with
  | zero =>
    intro v d _ h
    omega
  | succ fuel ih =>
    intro v d hd hfd
    have hne : st.dist v ≠ ⊤ := by
      rw [hd]
      exact WithTop.coe_ne_top
    have hbp : buildPath st.prev (fuel + 1) (some v)
        = buildPath st.prev fuel (st.prev v) ++ [v] := rfl
    rcases hCore.finitePrev v hne with hvs | ⟨c, hc⟩
    · have hprev : st.prev v = none := by
        rw [hvs]
        exact hCore.prevStart
      have hnil : buildPath st.prev fuel none = [] := by
        cases fuel <;> rfl
      rw [hbp, hprev, hnil, List.nil_append]
      have h0 : st.dist v = 0 := by
        rw [hvs]
        exact hCore.dstart
      rw [hd] at h0
      have hd0 : d = 0 := by exact_mod_cast h0
      rw [hvs, hd0]
      exact WalkL.nil start
    · obtain ⟨hcmem, _, w, hadj, hle⟩ := hCore.prevEdge v c hc
      have heq : st.dist c + (w : WithTop ℕ) = st.dist v :=
        le_antisymm hle (hNP c hcmem (v, w) hadj)
      have hcne : st.dist c ≠ ⊤ := by
        intro hctop
        rw [hctop, top_add, hd] at heq
        exact WithTop.coe_ne_top heq.symm
      obtain ⟨dc, hdc⟩ := WithTop.ne_top_iff_exists.mp hcne
      have hsum : dc + w = d := by
        have hcast : ((dc + w : ℕ) : WithTop ℕ) = (d : WithTop ℕ) := by
          rw [← hd, ← heq, ← hdc]
          norm_cast
        exact_mod_cast hcast
      have hw1 : 1 ≤ w := (hWF c hcmem (v, w) hadj).2
      have hdc_lt : dc < fuel := by omega
      have hwc := ih c dc hdc.symm hdc_lt
      rw [hbp, hc]
      have hfinal := hwc.append_node hcmem hadj
      rw [hsum] at hfinal
      exact hfinal

/-- C1: on every road network (well-formed weighted dictionary with
positive integer weights) and every pair of graph nodes, if `end` is
reachable from `start` then `Dijkstra.compute` returns a node sequence
that is a genuine walk from `start` to `end` whose edge weights sum
exactly to the returned total weight, and that total weight is minimal
among all walks from `start` to `end` (the brute-force reference
shortest distance); if `end` is unreachable it returns
`([], float('inf'))`. -/
theorem dijkstra_compute_correct (G : WGraph) (hwf : WFroad G)
    (start e : Node) (hstart : start ∈ G.nodes) (he : e ∈ G.nodes) :
    (Reachable G start e →
      ∃ (p : List Node) (w0 : ℕ),
        compute G start e = (p, ((w0 : ℕ) : WithTop ℕ)) ∧
        WalkL G start p e w0 ∧
        ∀ (q : List Node) (w : ℕ), WalkL G start q e w → w0 ≤ w) ∧
    (¬ Reachable G start e → compute G start e = ([], ⊤)) := by
  obtain ⟨hndG, hWF⟩ := hwf
  obtain ⟨hCore, hNP⟩ := dfinal_spec G hndG hWF start hstart
  constructor
  · intro hreach
    obtain ⟨p0, w0', hw0'⟩ := hreach
    have hne : (dloop G (dfuel G) (dinit G start)).dist e ≠ ⊤ := by
      intro htop
      have hle := dist_le_walk hNP hw0'
      rw [hCore.dstart, zero_add, htop] at hle
      exact absurd (top_le_iff.mp hle) WithTop.coe_ne_top
    obtain ⟨d, hd⟩ := WithTop.ne_top_iff_exists.mp hne
    have hcompute : compute G start e =
        (buildPath (dloop G (dfuel G) (dinit G start)).prev (bfuel G) (some e),
          (dloop G (dfuel G) (dinit G start)).dist e) := by
      unfold compute
      dsimp only
      rw [if_pos ⟨Or.inl he, hne⟩]
    have hdB : d ≤ distB G := hCore.dist_le_B hd.symm
    have hdlt : d < bfuel G := by
      unfold bfuel
      have hBd : distB G = G.nodes.length * maxW G := rfl
      rw [← hBd]
      omega
    have hwalk := buildPath_walk G start hWF _ hCore hNP (bfuel G) e d hd.symm hdlt
    refine ⟨_, d, ?_, hwalk, ?_⟩
    · rw [hcompute, ← hd]
      rfl
    · intro q w hq
      have hlw := dist_le_walk hNP hq
      rw [hCore.dstart, zero_add, ← hd] at hlw
      have h2 : ((d : ℕ) : WithTop ℕ) ≤ ((w : ℕ) : WithTop ℕ) := hlw
      exact_mod_cast h2
  · intro hnreach
    have htop : (dloop G (dfuel G) (dinit G start)).dist e = ⊤ := by
      by_contra hne
      obtain ⟨d, hd⟩ := WithTop.ne_top_iff_exists.mp hne
      obtain ⟨p, hwb, _⟩ := hCore.finite_walk e d hd.symm
      exact hnreach ⟨p, d, hwb.toWalkL⟩
    have hcond : ¬ ((e ∈ G.nodes ∨ e = start) ∧
        (dloop G (dfuel G) (dinit G start)).dist e ≠ ⊤) :=
      fun hcontra => hcontra.2 htop
    unfold compute
    dsimp only
    rw [if_neg hcond]

/-- C10: for every graph node `v`, the query with identical endpoints
`Dijkstra.compute(v, v)` returns the singleton path `[v]` with total
weight `0`. -/
theorem dijkstra_compute_self (G : WGraph) (hwf : WFroad G) (v : Node)
    (hv : v ∈ G.nodes) :
    compute G v v = ([v], (0 : WithTop ℕ)) := by
  obtain ⟨hndG, hWF⟩ := hwf
  obtain ⟨hCore, hNP⟩ := dfinal_spec G hndG hWF v hv
  have h0 : (dloop G (dfuel G) (dinit G v)).dist v = 0 := hCore.dstart
  have hne : (dloop G (dfuel G) (dinit G v)).dist v ≠ ⊤ := by
    rw [h0]
    exact (by simp : (0 : WithTop ℕ) ≠ ⊤)
  have hcompute : compute G v v =
      (buildPath (dloop G (dfuel G) (dinit G v)).prev (bfuel G) (some v),
        (dloop G (dfuel G) (dinit G v)).dist v) := by
    unfold compute
    dsimp only
    rw [if_pos ⟨Or.inl hv, hne⟩]
  have hprevv : (dloop G (dfuel G) (dinit G v)).prev v = none := hCore.prevStart
  have hbp : buildPath (dloop G (dfuel G) (dinit G v)).prev (bfuel G) (some v)
      = buildPath (dloop G (dfuel G) (dinit G v)).prev (G.nodes.length * maxW G)
          ((dloop G (dfuel G) (dinit G v)).prev v) ++ [v] := rfl
  have hnil : buildPath (dloop G (dfuel G) (dinit G v)).prev
      (G.nodes.length * maxW G) none = [] := by
    cases hnm : G.nodes.length * maxW G <;> rfl
  rw [hcompute, hbp, hprevv, hnil, List.nil_append, h0]

/-- Two-node road network used to witness the Dijkstra theorems. -/
def gD : WGraph :=
  { nodes := [(0, 0), (3, 4)],
    adj := fun v =>
      if v = ((0 : ℤ), (0 : ℤ)) then [((3, 4), 5)]
      else if v = ((3 : ℤ), (4 : ℤ)) then [((0, 0), 5)] else [] }

/-- Witness for `dijkstra_compute_correct` on the two-node road. -/
theorem dijkstra_compute_correct_witness :
    (WFroad gD ∧ ((0, 0) : Node) ∈ gD.nodes ∧ ((3, 4) : Node) ∈ gD.nodes) ∧
    ((Reachable gD (0, 0) (3, 4) →
      ∃ (p : List Node) (w0 : ℕ),
        compute gD (0, 0) (3, 4) = (p, ((w0 : ℕ) : WithTop ℕ)) ∧
        WalkL gD (0, 0) p (3, 4) w0 ∧
        ∀ (q : List Node) (w : ℕ), WalkL gD (0, 0) q (3, 4) w → w0 ≤ w) ∧
    (¬ Reachable gD (0, 0) (3, 4) → compute gD (0, 0) (3, 4) = ([], ⊤))) := by
  have hwf : WFroad gD := by
    constructor
    · decide
    · decide
  have h1 : ((0, 0) : Node) ∈ gD.nodes := by decide
  have h2 : ((3, 4) : Node) ∈ gD.nodes := by decide
  exact ⟨⟨hwf, h1, h2⟩, dijkstra_compute_correct gD hwf (0, 0) (3, 4) h1 h2⟩

/-- Witness for `dijkstra_compute_self` on the two-node road. -/
theorem dijkstra_compute_self_witness :
    (WFroad gD ∧ ((0, 0) : Node) ∈ gD.nodes) ∧
    compute gD (0, 0) (0, 0) = ([(0, 0)], (0 : WithTop ℕ)) := by
  have hwf : WFroad gD := by
    constructor
    · decide
    · decide
  have h1 : ((0, 0) : Node) ∈ gD.nodes := by decide
  exact ⟨⟨hwf, h1⟩, dijkstra_compute_self gD hwf (0, 0) h1⟩

end InfSim
